import Mathlib

/-!
Verification of the TileDB storage-management core (storage_manager.cc,
utils.cc) against its natural-language specification.  C++ strings are
modelled as lists of characters, the filesystem as an abstract record of
predicates, and fallible operations return an explicit status.  All
definitions follow the source; the few collaborators that are absent from
the source tree (zlib, the metadata predicate, mutex helpers) are modelled
from the specification and marked as such in their doc comments.
-/

namespace TileDB

/-- Paths and C++ strings are modelled as lists of characters. -/
abbrev Path := List Char

/-- Outcome of a fallible TileDB operation (C++ `Status`, or the
    `TILEDB_UT_OK`/`TILEDB_UT_ERR` integer convention of utils.cc).
    Error messages are irrelevant to the claims and are not modelled. -/
inductive Status where
  | ok : Status
  | err : Status
deriving DecidableEq

/-- utils.cc `both_slashes`: true iff both characters are '/'. -/
def both_slashes (a b : Char) : Bool :=
  a == '/' && b == '/'

/-- Helper for `adjacent_slashes_dedup`: `std::unique` keeps the first
    element of every run and drops each element equal (per `both_slashes`)
    to the survivor before it. -/
def dedup_after (prev : Char) : Path → Path
  | [] => []
  | b :: rest =>
    if both_slashes prev b then dedup_after prev rest
    else b :: dedup_after b rest

/-- utils.cc `adjacent_slashes_dedup`: collapse runs of '/' characters. -/
def adjacent_slashes_dedup : Path → Path
  | [] => []
  | a :: rest => a :: dedup_after a rest

/-- utils.cc `starts_with`: size check followed by `std::equal` on the
    candidate prefix, i.e. list-prefix test. -/
def starts_with (value pre : Path) : Bool :=
  pre.isPrefixOf value

/-- Splits a character list at every '/' (the tokenisation loop of
    `purge_dots_from_path`, which cuts the path at each '/'). The list of
    pieces is never empty; pieces contain no '/'. -/
def split_slash : Path → List Path
  | [] => [[]]
  | c :: rest =>
    if c = '/' then [] :: split_slash rest
    else
      match split_slash rest with
      | [] => [[c]]
      | t :: ts => (c :: t) :: ts

/-- Joins tokens with '/' separators (the reassembly loop of
    `purge_dots_from_path`, without the leading '/'). -/
def intercalate_slash : List Path → Path
  | [] => []
  | [t] => t
  | t :: ts => t ++ '/' :: intercalate_slash ts

/-- The dot-purging loop of utils.cc `purge_dots_from_path`: "." tokens are
    skipped, ".." pops the last kept token (failing on an empty stack,
    which signals an invalid path), every other token is pushed. -/
def purge_dots_loop : List Path → List Path → Option (List Path)
  | [], finals => some finals
  | t :: ts, finals =>
    if t = ['.'] then purge_dots_loop ts finals
    else if t = ['.', '.'] then
      if finals = [] then none
      else purge_dots_loop ts finals.dropLast
    else purge_dots_loop ts (finals ++ [t])

/-- utils.cc `purge_dots_from_path` (release semantics: the `assert` on a
    leading '/' is a no-op; tokenisation starts at index 1 regardless).
    Empty tokens are dropped, dots are resolved, and the result is
    reassembled with a leading '/'.  An invalid path (".." past the root)
    becomes the empty string. -/
def purge_dots_from_path (path : Path) : Path :=
  if path = [] ∨ path = ['/'] then path
  else
    let tokens := (split_slash (path.drop 1)).filter (fun t => t ≠ [])
    match purge_dots_loop tokens [] with
    | none => []
    | some finals => '/' :: intercalate_slash finals

/-- utils.cc `real_dir` — path canonicalisation.  The results of
    `current_dir()` (getcwd) and `getenv("HOME")` are passed in as the
    parameters `cwd` and `home`. -/
def real_dir (cwd home : Path) (dir : Path) : Path :=
  if dir = [] ∨ dir = ['.'] ∨ dir = ['.', '/'] then cwd
  else if dir = ['~'] then home
  else if dir = ['/'] then ['/']
  else
    let ret_dir :=
      if starts_with dir ['/'] then '/' :: dir
      else if starts_with dir ['~', '/'] then home ++ dir.drop 1
      else if starts_with dir ['.', '/'] then cwd ++ dir.drop 1
      else cwd ++ '/' :: dir
    purge_dots_from_path (adjacent_slashes_dedup ret_dir)

/-- utils.cc `parent_dir`: canonicalise, skip one trailing '/', scan
    backwards to the previous '/' and return everything before it.  On the
    one-character path "/" the C++ signed position underflows to -1 and
    `substr(0, -1)` (size_t-converted) returns the whole string, hence the
    special case.  On a path with no '/' (or the empty path) the scan stops
    at position 0 and the result is empty. -/
def parent_dir (cwd home : Path) (dir : Path) : Path :=
  let rd := real_dir cwd home dir
  if rd = ['/'] then ['/']
  else
    let r := rd.reverse
    let r1 :=
      match r with
      | c :: rest => if c = '/' then rest else r
      | [] => []
    ((r1.dropWhile (fun c => c ≠ '/')).drop 1).reverse

/-- utils.cc `cmp_row_order` (template over the element type): lexicographic
    comparison from dimension 0 upwards, mirroring the C++ loop.  The
    element order enters through its strict-less test `lt`; the C++ test
    `coords_a[i] > coords_b[i]` is `lt b a`, which for both the integer and
    the IEEE-754 instantiations coincides with `>`. -/
def cmp_row_order {T : Type} (lt : T → T → Bool) : List T → List T → Int
  | a :: as, b :: bs =>
    if lt a b then -1
    else if lt b a then 1
    else cmp_row_order lt as bs
  | _, _ => 0

/-- utils.cc `cmp_col_order`: the same comparison loop run from dimension
    dim_num-1 down to 0, i.e. `cmp_row_order` on the reversed tuples. -/
def cmp_col_order {T : Type} (lt : T → T → Bool) (a b : List T) : Int :=
  cmp_row_order lt a.reverse b.reverse

/-- Strict less on Int, the order used when the comparators are
    instantiated at the integer element types (i32 / i64 values compare
    exactly like mathematical integers). -/
def int_lt (a b : Int) : Bool :=
  a < b

/-- Model of an IEEE-754 f32/f64 value as seen by the comparators: `none`
    is NaN (every `<` and `>` comparison involving it is false) and
    `some x` a finite value; finite values compare like the reals.  The
    concrete inputs used below are small integers, which are exactly
    representable in both f32 and f64. -/
abbrev FloatVal := Option Int

/-- IEEE-754 strict less: false whenever either operand is NaN. -/
def float_lt : FloatVal → FloatVal → Bool
  | some a, some b => a < b
  | _, _ => false

/-- utils.cc `expand_buffer`: doubling realloc; the allocation itself is
    modelled as succeeding and only the allocated size is tracked. -/
def expand_buffer (sz : Nat) : Nat :=
  sz * 2

/-- Modelled from the spec: the fixed inflate chunk size
    `TILEDB_GZIP_CHUNK_SIZE` (constants.h is not in the source tree; the
    spec gives 16 KiB). -/
def TILEDB_GZIP_CHUNK_SIZE : Nat := 16384

/-- Modelled from the spec: a zlib-compressed stream (zlib is an external
    library).  The spec's contract for deflate/inflate is that inflating
    the stream produced by `gzip(b)` yields exactly `b`, so the compressed
    stream is represented abstractly by its inflated contents. -/
structure GzStream where
  data : List Nat
deriving DecidableEq

/-- Modelled from the spec: utils.cc `gzip` deflates the input with
    `Z_FINISH`; per the zlib contract the resulting stream inflates back to
    the input bytes. -/
def gzip (b : List Nat) : GzStream :=
  ⟨b⟩

/-- utils.cc `gunzip`: single-shot inflate with `Z_FINISH` into a caller
    buffer of capacity `avail_out`; it fails unless the stream ends cleanly
    inside the buffer, and otherwise reports the inflated bytes and their
    count. -/
def gunzip (s : GzStream) (avail_out : Nat) : Status × List Nat × Nat :=
  if s.data.length ≤ avail_out then (Status.ok, s.data, s.data.length)
  else (Status.err, [], 0)

/-- Result of `gunzip_unknown_output_size`.  `in_bounds` instruments the
    memcpy of each chunk: it stays true iff every copy ended within the
    allocated capacity of the output buffer (`out_size + inflated_bytes ≤
    avail_out` at copy time). -/
structure GunzipResult where
  st : Status
  out : List Nat
  avail_out : Nat
  out_size : Nat
  in_bounds : Bool
deriving DecidableEq

/-- The do/while loop of utils.cc `gunzip_unknown_output_size`: inflate up
    to `chunk_size` bytes, grow the output buffer by one doubling when the
    chunk would overflow it, memcpy the chunk, and continue while the chunk
    buffer was filled completely.  `fuel` is a structural-recursion bound;
    callers pass more fuel than iterations (each iteration consumes
    `chunk_size` ≥ 1 input bytes). -/
def gunzip_loop (chunk_size : Nat) :
    Nat → List Nat → List Nat → Nat → Nat → Bool → GunzipResult
  | 0, _, out, avail, size, okb => ⟨Status.ok, out, avail, size, okb⟩
  | fuel + 1, rem, out, avail, size, okb =>
    let chunk := rem.take chunk_size
    let ib := chunk.length
    if ib = 0 then ⟨Status.ok, out, avail, size, okb⟩
    else
      let avail2 := if size + ib > avail then expand_buffer avail else avail
      let okb2 := okb && decide (size + ib ≤ avail2)
      let out2 := out ++ chunk
      let size2 := size + ib
      if ib = chunk_size then
        gunzip_loop chunk_size fuel (rem.drop chunk_size) out2 avail2 size2 okb2
      else ⟨Status.ok, out2, avail2, size2, okb2⟩

/-- utils.cc `gunzip_unknown_output_size`: streaming inflate of the whole
    stream starting from an output buffer of capacity `avail0`. -/
def gunzip_unknown_output_size (s : GzStream) (avail0 : Nat) : GunzipResult :=
  gunzip_loop TILEDB_GZIP_CHUNK_SIZE (s.data.length + 1) s.data [] avail0 0 true

/-- storage_manager.cc `StorageManager::array_consolidate`, modelled over
    the outcomes of its phases: `array_init`, `array->consolidate` (whose
    status the source computes but never consults — the "unhandled error
    handling" TODO), `array_close`, `consolidation_finalize` and
    `array->finalize`.  The final success test is the source's
    `!(st_array_close.ok() && !st_consolidation_finalize.ok())`. -/
def array_consolidate
    (st_init st_array_consolidate st_array_close
     st_consolidation_finalize st_array_finalize : Status) : Status :=
  if st_init ≠ Status.ok then st_init
  else
    let _ := st_array_consolidate
    if st_array_finalize ≠ Status.ok then Status.err
    else if ¬(st_array_close = Status.ok ∧ ¬(st_consolidation_finalize = Status.ok)) then
      Status.err
    else Status.ok

/-- Filesystem events emitted while finalising a consolidation: writing the
    new fragment's marker file (`__tiledb_fragment.tdb`), removing an old
    fragment's marker file, and recursively deleting an old fragment
    directory. -/
inductive FsEvent where
  | writeMarker (frag : Path)
  | removeMarker (frag : Path)
  | deleteDir (frag : Path)
deriving DecidableEq

/-- Injected failure outcomes for the fallible steps of
    `consolidation_finalize`: the exclusive filelock acquisition, the new
    fragment's `finalize()`, the `remove` of the i-th old marker, the
    filelock release, and the `delete_dir` of the i-th old directory. -/
structure ConsFail where
  lockFails : Bool
  finalizeFails : Bool
  removeFails : Nat → Bool
  unlockFails : Bool
  deleteFails : Nat → Bool

/-- The marker-removal loop of `consolidation_finalize`: remove the special
    fragment file of each old fragment in order, aborting with an error (and
    without emitting the failed removal) at the first OS failure. -/
def remove_markers_loop (fails : Nat → Bool) : List Path → Nat → Status × List FsEvent
  | [], _ => (Status.ok, [])
  | p :: rest, i =>
    if fails i then (Status.err, [])
    else
      let r := remove_markers_loop fails rest (i + 1)
      (r.1, FsEvent.removeMarker p :: r.2)

/-- The directory-deletion loop of `consolidation_finalize`: recursively
    delete each old fragment directory in order, aborting at the first
    failure. -/
def delete_dirs_loop (fails : Nat → Bool) : List Path → Nat → Status × List FsEvent
  | [], _ => (Status.ok, [])
  | p :: rest, i =>
    if fails i then (Status.err, [])
    else
      let r := delete_dirs_loop fails rest (i + 1)
      (r.1, FsEvent.deleteDir p :: r.2)

/-- storage_manager.cc `StorageManager::consolidation_finalize`, modelled as
    the sequence of filesystem events it performs.  The new fragment's
    `finalize()` is an external Fragment-engine call; per the spec it writes
    the new fragment's marker file on success and leaves the fragment
    invisible on failure (modelled from the spec).  Steps in source order:
    trivial exit when no old fragments exist, exclusive filelock, fragment
    finalize (marker write), marker-removal loop, filelock release,
    directory-deletion loop. -/
def consolidation_finalize (new_fragment : Path) (old_fragment_names : List Path)
    (f : ConsFail) : Status × List FsEvent :=
  if old_fragment_names = [] then (Status.ok, [])
  else if f.lockFails then (Status.err, [])
  else if f.finalizeFails then (Status.err, [])
  else
    let base := [FsEvent.writeMarker new_fragment]
    let r1 := remove_markers_loop f.removeFails old_fragment_names 0
    if r1.1 = Status.err then (Status.err, base ++ r1.2)
    else if f.unlockFails then (Status.err, base ++ r1.2)
    else
      let r2 := delete_dirs_loop f.deleteFails old_fragment_names 0
      (r2.1, base ++ r1.2 ++ r2.2)

/-- Leading-decimal-digits value of a character list (each character is
    assumed to be a digit; '0' has code 48). -/
def parse_digits (s : List Char) : Nat :=
  s.foldl (fun acc c => acc * 10 + (c.toNat - 48)) 0

/-- Model of `sscanf(s, "%lld", &t)` on a string with no leading
    whitespace: an optional sign, then leading decimal digits (saturating
    at the int64_t maximum, as glibc's strtoll does); when no digit
    matches, `t` keeps its previous — in the source uninitialised — value,
    which is passed in as `t`. -/
def sscanf_lld (s : List Char) (t : Int) : Int :=
  let sr : Int × List Char :=
    match s with
    | c :: r => if c = '-' then (-1, r) else if c = '+' then (1, r) else (1, s)
    | [] => (1, s)
  let ds := sr.2.takeWhile Char.isDigit
  if ds = [] then t
  else sr.1 * Int.ofNat (min (parse_digits ds) (2 ^ 63 - 1))

/-- The name stripping of `sort_fragment_names`: drop the parent directory
    and the '/' after it (`fragment_name.substr(parent.size() + 1)`). -/
def stripped_fragment_name (cwd home : Path) (name : Path) : Path :=
  name.drop ((parent_dir cwd home name).length + 1)

/-- The source's `assert(utils::starts_with(stripped_fragment_name, "__"))`
    — a debug-build-only check, compiled out under NDEBUG. -/
def fragment_name_assert (cwd home : Path) (name : Path) : Bool :=
  starts_with (stripped_fragment_name cwd home name) ['_', '_']

/-- The timestamp/index key `sort_fragment_names` computes for the i-th
    fragment name: scan the stripped name from index 2 for the first '_',
    parse everything after it with `sscanf %lld`; when no '_' is found the
    vector slot keeps its value-initialised pair (0, 0).  `junk` stands for
    the indeterminate value `t` holds when sscanf matches nothing. -/
def fragment_key (cwd home : Path) (junk : Int) (i : Nat) (name : Path) : Int × Nat :=
  let stripped := stripped_fragment_name cwd home name
  match (stripped.drop 2).findIdx? (fun c => c = '_') with
  | some k => (sscanf_lld (stripped.drop (k + 2 + 1)) junk, i)
  | none => (0, 0)

/-- The order `std::sort` uses on the `(timestamp, index)` pairs:
    `std::pair`'s lexicographic `operator<`, taken here as its reflexive
    closure. -/
def pair_le (a b : Int × Nat) : Prop :=
  a.1 < b.1 ∨ (a.1 = b.1 ∧ a.2 ≤ b.2)

instance : DecidableRel pair_le := fun a b => by
  unfold pair_le
  infer_instance

instance : IsTotal (Int × Nat) pair_le :=
  ⟨by
    intro a b
    unfold pair_le
    omega⟩

instance : IsTrans (Int × Nat) pair_le :=
  ⟨by
    intro a b c hab hbc
    unfold pair_le at hab hbc ⊢
    omega⟩

/-- storage_manager.cc `StorageManager::sort_fragment_names`: build the
    `(timestamp, index)` pair for every name, sort the pairs, and permute
    the names accordingly.  `std::sort` is an arbitrary comparison sort for
    the strict weak order `operator<`; since the pairs carry distinct
    indices the sorted arrangement of distinct pairs is unique, so it is
    computed here by insertion sort on the reflexive closure `pair_le`. -/
def sort_fragment_names (cwd home : Path) (junk : Int)
    (fragment_names : List Path) : List Path :=
  let t_pos_vec := fragment_names.enum.map (fun e => fragment_key cwd home junk e.1 e.2)
  (List.insertionSort pair_le t_pos_vec).map (fun k => fragment_names.getD k.2 [])

/-- Modelled from the spec: the timestamp embedded in a fragment directory
    name is the last underscore-separated field of its basename (the part
    after the final '/'), parsed as a decimal integer.  This is the
    specification-side definition used to state the ordering claim. -/
def spec_timestamp (name : Path) : Nat :=
  let base := (name.reverse.takeWhile (fun c => c ≠ '/')).reverse
  parse_digits (base.reverse.takeWhile (fun c => c ≠ '_')).reverse

/-- Strict lexicographic order on (timestamp, original index) pairs: the
    spec's "ascending embedded timestamp, ties broken by original index". -/
def pair_lt (a b : Nat × Nat) : Prop :=
  a.1 < b.1 ∨ (a.1 = b.1 ∧ a.2 < b.2)

instance : DecidableRel pair_lt := fun a b => by
  unfold pair_lt
  infer_instance

/-- A fragment directory path of the shape `<parent>/__<uuid>_<tstr>`. -/
def mk_fragment_path (parent uuid tstr : Path) : Path :=
  parent ++ '/' :: '_' :: '_' :: (uuid ++ '_' :: tstr)

/-- Abstract filesystem state at call time: the `stat`-based predicates of
    utils.cc and `opendir` (`none` when the directory cannot be opened,
    otherwise the entry names `readdir` yields, in order, including any "."
    and ".." entries). -/
structure FS where
  isDir : Path → Bool
  isFile : Path → Bool
  opendir : Path → Option (List Path)

/-- A concrete filesystem given by its directory and file path lists, with
    no openable directories (enough for the create-operation witnesses). -/
def FS.ofLists (ds fl : List Path) : FS :=
  ⟨fun p => ds.contains p, fun p => fl.contains p, fun _ => none⟩

/-- constants.h is absent from the source tree; marker filenames are taken
    from the spec's filesystem layout.  Workspace marker. -/
def TILEDB_WORKSPACE_FILENAME : Path := "__tiledb_workspace.tdb".toList

/-- Group marker filename (from the spec's filesystem layout). -/
def TILEDB_GROUP_FILENAME : Path := "__tiledb_group.tdb".toList

/-- Array schema filename (from the spec's filesystem layout). -/
def TILEDB_ARRAY_SCHEMA_FILENAME : Path := "__array_schema.tdb".toList

/-- Metadata schema filename (from the spec's filesystem layout). -/
def TILEDB_METADATA_SCHEMA_FILENAME : Path := "__metadata_schema.tdb".toList

/-- Consolidation filelock filename (from the spec's filesystem layout). -/
def TILEDB_SM_CONSOLIDATION_FILELOCK_NAME : Path := "__consolidation_lock".toList

/-- utils.cc `is_workspace`: a directory containing the workspace marker. -/
def is_workspace (fs : FS) (dir : Path) : Bool :=
  fs.isDir dir && fs.isFile (dir ++ '/' :: TILEDB_WORKSPACE_FILENAME)

/-- utils.cc `is_group`: a directory containing the group marker. -/
def is_group (fs : FS) (dir : Path) : Bool :=
  fs.isDir dir && fs.isFile (dir ++ '/' :: TILEDB_GROUP_FILENAME)

/-- utils.cc `is_array`: a directory containing the array schema file. -/
def is_array (fs : FS) (dir : Path) : Bool :=
  fs.isDir dir && fs.isFile (dir ++ '/' :: TILEDB_ARRAY_SCHEMA_FILENAME)

/-- Modelled from the spec: `is_metadata` is absent from the source tree
    (utils.cc has the workspace/group/array/fragment predicates only); per
    the spec it is a directory containing the metadata schema file. -/
def is_metadata (fs : FS) (dir : Path) : Bool :=
  fs.isDir dir && fs.isFile (dir ++ '/' :: TILEDB_METADATA_SCHEMA_FILENAME)

/-- Filesystem mutations a create operation performs. -/
inductive FsOp where
  | mkDir (p : Path)
  | createFile (p : Path)
deriving DecidableEq

/-- utils.cc `create_dir`: canonicalise, fail if the directory already
    exists, otherwise mkdir (the OS call is modelled as succeeding). -/
def create_dir (fs : FS) (cwd home : Path) (dir : Path) : Status × List FsOp :=
  let rd := real_dir cwd home dir
  if fs.isDir rd then (Status.err, [])
  else (Status.ok, [FsOp.mkDir rd])

/-- storage_manager.cc `StorageManager::workspace_create`: reject with a
    containment error when the parent is a workspace, group, array or
    metadata directory; otherwise create the directory and its workspace
    marker file. -/
def workspace_create (fs : FS) (cwd home : Path) (workspace : Path) : Status × List FsOp :=
  let parent := parent_dir cwd home workspace
  if is_workspace fs parent || is_group fs parent ||
     is_array fs parent || is_metadata fs parent then (Status.err, [])
  else
    let c := create_dir fs cwd home workspace
    if c.1 = Status.err then (Status.err, [])
    else (Status.ok, c.2 ++ [FsOp.createFile (workspace ++ '/' :: TILEDB_WORKSPACE_FILENAME)])

/-- storage_manager.cc `StorageManager::group_create`: reject with a
    containment error unless the parent is a workspace or a group;
    otherwise create the directory and its group marker file. -/
def group_create (fs : FS) (cwd home : Path) (group : Path) : Status × List FsOp :=
  let parent := parent_dir cwd home group
  if !(is_workspace fs parent) && !(is_group fs parent) then (Status.err, [])
  else
    let c := create_dir fs cwd home group
    if c.1 = Status.err then (Status.err, [])
    else (Status.ok, c.2 ++ [FsOp.createFile (group ++ '/' :: TILEDB_GROUP_FILENAME)])

/-- storage_manager.cc `StorageManager::metadata_create` (the schema
    variant, with the schema's `array_name()` passed as `dir` and the
    schema-blob serialisation modelled as succeeding): reject with a
    containment error unless the parent is a workspace, group or array;
    otherwise create the directory, the metadata schema file and the
    consolidation filelock. -/
def metadata_create (fs : FS) (cwd home : Path) (dir : Path) : Status × List FsOp :=
  let parent := parent_dir cwd home dir
  if !(is_workspace fs parent) && !(is_group fs parent) && !(is_array fs parent) then
    (Status.err, [])
  else
    let c := create_dir fs cwd home dir
    if c.1 = Status.err then (Status.err, [])
    else
      (Status.ok, c.2 ++
        [FsOp.createFile (dir ++ '/' :: TILEDB_METADATA_SCHEMA_FILENAME),
         FsOp.createFile (dir ++ '/' :: TILEDB_SM_CONSOLIDATION_FILELOCK_NAME)])

/-- The TileDB object kinds `ls` reports (`tiledb_object_t`). -/
inductive ObjType where
  | workspace
  | group
  | array
  | metadata
deriving DecidableEq

/-- The readdir loop of `StorageManager::ls`: skip "." and "..", classify
    every remaining entry, and copy its name and kind into the caller's
    buffers, failing with a buffer-overflow error when `dir_i` reaches the
    caller-provided capacity.  Buffers are functional arrays updated with
    `List.set`. -/
def ls_loop (fs : FS) (parent_real : Path) (cap : Nat) :
    List Path → List Path → List ObjType → Nat → Status × List Path × List ObjType × Nat
  | [], dirs, dir_types, dir_i => (Status.ok, dirs, dir_types, dir_i)
  | name :: rest, dirs, dir_types, dir_i =>
    if name = ['.'] ∨ name = ['.', '.'] then ls_loop fs parent_real cap rest dirs dir_types dir_i
    else
      let filename := parent_real ++ '/' :: name
      let kind : Option ObjType :=
        if is_group fs filename then some ObjType.group
        else if is_metadata fs filename then some ObjType.metadata
        else if is_array fs filename then some ObjType.array
        else if is_workspace fs filename then some ObjType.workspace
        else none
      match kind with
      | none => ls_loop fs parent_real cap rest dirs dir_types dir_i
      | some k =>
        if dir_i = cap then (Status.err, dirs, dir_types, cap)
        else
          ls_loop fs parent_real cap rest
            (dirs.set dir_i name) (dir_types.set dir_i k) (dir_i + 1)

/-- storage_manager.cc `StorageManager::ls`: canonicalise the parent; when
    `opendir` fails, set `dir_num` to 0 and return Ok with the buffers
    untouched; otherwise run the classification loop and report the number
    of directories written. -/
def ls (fs : FS) (cwd home : Path) (parent : Path)
    (dirs : List Path) (dir_types : List ObjType) (dir_num : Nat) :
    Status × List Path × List ObjType × Nat :=
  let parent_real := real_dir cwd home parent
  match fs.opendir parent_real with
  | none => (Status.ok, dirs, dir_types, 0)
  | some entries => ls_loop fs parent_real dir_num entries dirs dir_types 0

/-- The counting loop of `StorageManager::ls_c`. -/
def ls_c_loop (fs : FS) (parent_real : Path) : List Path → Nat → Nat
  | [], n => n
  | name :: rest, n =>
    if name = ['.'] ∨ name = ['.', '.'] then ls_c_loop fs parent_real rest n
    else
      let filename := parent_real ++ '/' :: name
      if is_group fs filename || is_metadata fs filename ||
         is_array fs filename || is_workspace fs filename then
        ls_c_loop fs parent_real rest (n + 1)
      else ls_c_loop fs parent_real rest n

/-- storage_manager.cc `StorageManager::ls_c`: like `ls` but only counts;
    `dir_num` is initialised to 0 before `opendir`, so an unopenable parent
    yields Ok with a zero count. -/
def ls_c (fs : FS) (cwd home : Path) (parent : Path) : Status × Nat :=
  let parent_real := real_dir cwd home parent
  match fs.opendir parent_real with
  | none => (Status.ok, 0)
  | some entries => (Status.ok, ls_c_loop fs parent_real entries 0)

/-- The open-array registry: the `open_arrays_` map from canonical array
    path to the entry's reference count `cnt_` (an `int` in the source,
    hence `Int`).  The schema/book-keeping fields play no role in the
    reference-counting claim.  Lookup, in-place update and erase follow
    `std::map` semantics on the first matching key. -/
abbrev Registry := List (Path × Int)

/-- Registry lookup (`open_arrays_.find`). -/
def reg_find (p : Path) : Registry → Option Int
  | [] => none
  | (q, n) :: rest => if q = p then some n else reg_find p rest

/-- In-place update of the entry for `p` (mutation through the map
    iterator). -/
def reg_update (p : Path) (v : Int) : Registry → Registry
  | [] => []
  | (q, n) :: rest => if q = p then (q, v) :: rest else (q, n) :: reg_update p v rest

/-- Erase the entry for `p` (`open_arrays_.erase(it)`). -/
def reg_erase (p : Path) : Registry → Registry
  | [] => []
  | (q, n) :: rest => if q = p then rest else (q, n) :: reg_erase p rest

/-- storage_manager.cc `StorageManager::array_get_open_array_entry`: under
    the registry lock (the mutex helpers are absent from the source tree
    and modelled from the spec as succeeding), find the entry for `array`,
    creating it with `cnt_ = 0` when missing, then increment its counter. -/
def array_get_open_array_entry (array : Path) (reg : Registry) : Status × Registry :=
  match reg_find array reg with
  | none => (Status.ok, (array, 0 + 1) :: reg)
  | some n => (Status.ok, reg_update array (n + 1) reg)

/-- storage_manager.cc `StorageManager::array_close`: look up the entry for
    the canonicalised path (missing entry is an error), decrement its
    counter, and erase the entry — releasing book-keeping, schema and the
    consolidation filelock — exactly when the counter reaches 0. -/
def array_close (cwd home : Path) (array : Path) (reg : Registry) : Status × Registry :=
  let key := real_dir cwd home array
  match reg_find key reg with
  | none => (Status.err, reg)
  | some n =>
    if n - 1 = 0 then (Status.ok, reg_erase key reg)
    else (Status.ok, reg_update key (n - 1) reg)

/-- `N` successive `array_get_open_array_entry` calls on the same path. -/
def open_times (array : Path) : Nat → Registry → Registry
  | 0, reg => reg
  | n + 1, reg => open_times array n (array_get_open_array_entry array reg).2

/-- `N` successive `array_close` calls on the same path. -/
def close_times (cwd home : Path) (array : Path) : Nat → Registry → Registry
  | 0, reg => reg
  | n + 1, reg => close_times cwd home array n (array_close cwd home array reg).2

/-- A well-formed path component: nonempty, containing no '/', and not one
    of the dot components "." and "..". -/
def GoodToken (t : Path) : Prop :=
  t ≠ [] ∧ '/' ∉ t ∧ t ≠ ['.'] ∧ t ≠ ['.', '.']

instance : DecidablePred GoodToken := fun t => by
  unfold GoodToken
  infer_instance

/-- A canonical absolute path: "/" itself, or '/' followed by well-formed
    components separated by single slashes with no trailing slash.  This is
    the shape `real_dir` produces for valid inputs, and the shape `getcwd`
    output and a sane `$HOME` have. -/
def GoodPath (p : Path) : Prop :=
  p = ['/'] ∨ (p.head? = some '/' ∧ p.drop 1 ≠ [] ∧ ∀ t ∈ split_slash (p.drop 1), GoodToken t)

instance : DecidablePred GoodPath := fun p => by
  unfold GoodPath
  infer_instance

/-- Two adjacent characters are not both slashes (the invariant
    `adjacent_slashes_dedup` establishes and preserves). -/
def no_both (a b : Char) : Prop :=
  ¬(a = '/' ∧ b = '/')

/-! ## Theorems -/

/-- Claim C1 (code bug): `array_consolidate` should succeed iff every phase
    succeeds — in particular it should report an error whenever
    `consolidation_finalize` fails.  The source's success precondition
    `st_array_close.ok() && !st_consolidation_finalize.ok()` does the
    opposite: with every other phase succeeding, a failed
    `consolidation_finalize` yields Ok, and an all-successful run yields an
    error. -/
theorem array_consolidate_swallows_finalize_error :
    array_consolidate Status.ok Status.ok Status.ok Status.err Status.ok = Status.ok ∧
    array_consolidate Status.ok Status.ok Status.ok Status.ok Status.ok = Status.err := by
  decide

/-- Claim C2 (code bug): the fixed-buffer round trip
    `gunzip (gzip b)` does return `b`, but the streaming
    `gunzip_unknown_output_size` started with a 1-byte output buffer
    violates the in-bounds guarantee: for the 3-byte input the single
    doubling of `expand_buffer` grows the buffer only to 2 bytes and the
    subsequent memcpy writes 3 bytes into it (`in_bounds = false`). -/
theorem gunzip_streaming_overflows_one_byte_buffer :
    gunzip (gzip [1, 2, 3]) 3 = (Status.ok, [1, 2, 3], 3) ∧
    gunzip_unknown_output_size (gzip [1, 2, 3]) 1 =
      ⟨Status.ok, [1, 2, 3], 2, 3, false⟩ := by
  decide

/-- Claim C10: when the parent directory cannot be opened, `ls` and `ls_c`
    return Ok with `dir_num = 0` and the output buffers untouched. -/
theorem ls_missing_dir_ok (fs : FS) (cwd home parent : Path)
    (dirs : List Path) (dir_types : List ObjType) (dir_num : Nat)
    (h : fs.opendir (real_dir cwd home parent) = none) :
    ls fs cwd home parent dirs dir_types dir_num = (Status.ok, dirs, dir_types, 0) ∧
    ls_c fs cwd home parent = (Status.ok, 0) := by
  constructor
  · simp only [ls, h]
  · simp only [ls_c, h]

/-- Witness for C10: a filesystem with no openable directory at the
    concrete parent "/nope". -/
theorem ls_missing_dir_ok_witness :
    (FS.ofLists [] []).opendir (real_dir "/c".toList "/h".toList "/nope".toList) = none ∧
    ls (FS.ofLists [] []) "/c".toList "/h".toList "/nope".toList [[]] [ObjType.group] 1 =
      (Status.ok, [[]], [ObjType.group], 0) ∧
    ls_c (FS.ofLists [] []) "/c".toList "/h".toList "/nope".toList = (Status.ok, 0) := by
  refine ⟨rfl, ?_⟩
  exact ls_missing_dir_ok (FS.ofLists [] []) "/c".toList "/h".toList "/nope".toList
    [[]] [ObjType.group] 1 rfl

/-- Counterexample to claim C5: the fragment name "/a/frag" lacks the "__"
    prefix (the source guards this with a debug-only assert, which is false
    here) and has no '_' after position 2, so no timestamp is parsed — yet
    `sort_fragment_names` (whose API has no error channel) silently keeps
    the value-initialised key (0, 0) and includes the name in its output
    instead of reporting a load-time error. -/
theorem sort_fragment_names_accepts_malformed_name :
    fragment_name_assert "/c".toList "/h".toList "/a/frag".toList = false ∧
    fragment_key "/c".toList "/h".toList 0 0 "/a/frag".toList = (0, 0) ∧
    sort_fragment_names "/c".toList "/h".toList 0 ["/a/frag".toList] = ["/a/frag".toList] := by
  decide

/-- Claim C5 (amended): a fragment name with no '_' at index ≥ 2 of its
    stripped basename is never reported as an error — `sort_fragment_names`
    has no error channel; the name's slot keeps the value-initialised pair
    (timestamp 0, index 0) and the name is included in the output,
    independently of the indeterminate `sscanf` value `junk`. -/
theorem sort_fragment_names_malformed_default_zero (cwd home : Path) (junk : Int)
    (name : Path)
    (h : ((stripped_fragment_name cwd home name).drop 2).findIdx? (fun c => c = '_') = none) :
    fragment_key cwd home junk 0 name = (0, 0) ∧
    sort_fragment_names cwd home junk [name] = [name] := by
  have hk : fragment_key cwd home junk 0 name = (0, 0) := by
    simp only [fragment_key, h]
  refine ⟨hk, ?_⟩
  unfold sort_fragment_names
  simp [List.enum, hk, List.insertionSort]

/-- Witness for the amended C5 at the concrete malformed name "/a/frag". -/
theorem sort_fragment_names_malformed_default_zero_witness :
    (((stripped_fragment_name "/cw".toList "/hm".toList "/a/frag".toList).drop 2).findIdx?
      (fun c => c = '_') = none) ∧
    fragment_key "/cw".toList "/hm".toList 37 0 "/a/frag".toList = (0, 0) ∧
    sort_fragment_names "/cw".toList "/hm".toList 37 ["/a/frag".toList] = ["/a/frag".toList] := by
  refine ⟨by decide, ?_⟩
  exact sort_fragment_names_malformed_default_zero "/cw".toList "/hm".toList 37
    "/a/frag".toList (by decide)

/-- Counterexample to claim C6: canonicalisation is not idempotent on
    invalid inputs.  "/../x" canonicalises to the empty string, but
    canonicalising the empty string again yields the current directory
    ("/c" here), not the empty string. -/
theorem real_dir_not_idempotent_on_invalid :
    real_dir "/c".toList "/h".toList (real_dir "/c".toList "/h".toList "/../x".toList) ≠
      real_dir "/c".toList "/h".toList "/../x".toList := by
  decide

/-- Counterexample to claim C7: with the IEEE-754 comparison semantics of
    f32/f64 (NaN incomparable), `cmp_row_order` at dim_num = 2 is not
    transitive: a = (0, 5), b = (NaN, 6), c = (-5, 6) give cmp(a,b) ≤ 0 and
    cmp(b,c) ≤ 0 but cmp(a,c) = 1 > 0, so the float comparators are not
    total orders. -/
theorem cmp_row_order_float_not_transitive :
    cmp_row_order float_lt [some 0, some 5] [none, some 6] ≤ 0 ∧
    cmp_row_order float_lt [none, some 6] [some (-5), some 6] ≤ 0 ∧
    ¬(cmp_row_order float_lt [some 0, some 5] [some (-5), some 6] ≤ 0) := by
  decide

/-- The empty list is never a concatenation around a cons cell. -/
theorem nil_ne_append_cons {α : Type} (l1 l2 : List α) (x : α) :
    ([] : List α) ≠ l1 ++ x :: l2 := by
  intro h
  have hlen := congrArg List.length h
  simp [List.length_append] at hlen
  omega

/-- Step equation of the marker-removal loop when the removal fails. -/
theorem remove_markers_loop_cons_fail (fails : Nat → Bool) (p : Path) (rest : List Path)
    (i : Nat) (hf : fails i = true) :
    remove_markers_loop fails (p :: rest) i = (Status.err, []) := by
  simp [remove_markers_loop, hf]

/-- Step equation of the marker-removal loop when the removal succeeds. -/
theorem remove_markers_loop_cons_ok (fails : Nat → Bool) (p : Path) (rest : List Path)
    (i : Nat) (hf : fails i = false) :
    remove_markers_loop fails (p :: rest) i =
      ((remove_markers_loop fails rest (i + 1)).1,
       FsEvent.removeMarker p :: (remove_markers_loop fails rest (i + 1)).2) := by
  simp [remove_markers_loop, hf]

/-- Every event the marker-removal loop emits is the removal of one of the
    given old fragments' markers. -/
theorem remove_markers_loop_events (fails : Nat → Bool) :
    ∀ (old : List Path) (i : Nat) (e : FsEvent), e ∈ (remove_markers_loop fails old i).2 →
      ∃ q ∈ old, e = FsEvent.removeMarker q := by
  intro old
  induction old with
  | nil =>
    intro i e he
    simp [remove_markers_loop] at he
  | cons p rest ih =>
    intro i e he
    by_cases hf : fails i = true
    · rw [remove_markers_loop_cons_fail fails p rest i hf] at he
      simp at he
    · have hf' : fails i = false := by simpa using hf
      rw [remove_markers_loop_cons_ok fails p rest i hf'] at he
      rcases List.mem_cons.mp he with hc | hc
      · exact ⟨p, List.mem_cons_self p rest, hc⟩
      · obtain ⟨q, hq, hqe⟩ := ih (i + 1) e hc
        exact ⟨q, List.mem_cons_of_mem p hq, hqe⟩

/-- When the marker-removal loop succeeds it removes exactly the markers of
    the given old fragments, in order. -/
theorem remove_markers_loop_ok (fails : Nat → Bool) :
    ∀ (old : List Path) (i : Nat), (remove_markers_loop fails old i).1 = Status.ok →
      (remove_markers_loop fails old i).2 = old.map FsEvent.removeMarker := by
  intro old
  induction old with
  | nil => intro i _; rfl
  | cons p rest ih =>
    intro i h
    by_cases hf : fails i = true
    · rw [remove_markers_loop_cons_fail fails p rest i hf] at h
      exact absurd h (by simp)
    · have hf' : fails i = false := by simpa using hf
      rw [remove_markers_loop_cons_ok fails p rest i hf'] at h ⊢
      simp only [List.map_cons]
      rw [ih (i + 1) h]

/-- If `pre ++ rest` splits as `l1 ++ x :: l2` and `x` does not occur in
    `pre`, then all of `pre` lies inside `l1`. -/
theorem mem_left_of_append_split {α : Type} (x : α) :
    ∀ (pre l1 rest l2 : List α), pre ++ rest = l1 ++ x :: l2 → x ∉ pre →
      ∀ y ∈ pre, y ∈ l1 := by
  intro pre
  induction pre with
  | nil => intro l1 rest l2 _ _ y hy; simp at hy
  | cons a pre' ih =>
    intro l1 rest l2 h hx y hy
    cases l1 with
    | nil =>
      simp only [List.cons_append, List.nil_append] at h
      injection h with h1 _
      subst h1
      exact (hx (List.mem_cons_self _ _)).elim
    | cons b l1' =>
      simp only [List.cons_append] at h
      injection h with h1 h2
      rcases List.mem_cons.mp hy with hy | hy
      · rw [hy, h1]
        exact List.mem_cons_self _ _
      · exact List.mem_cons_of_mem b
          (ih l1' rest l2 h2 (fun hmem => hx (List.mem_cons_of_mem a hmem)) y hy)

/-- In a trace starting with the new-fragment marker write, any split at a
    marker-removal event puts the marker write into the left part. -/
theorem write_first_of_cons (nf : Path) (tail : List FsEvent) :
    ∀ (l1 : List FsEvent) (p : Path) (l2 : List FsEvent),
      FsEvent.writeMarker nf :: tail = l1 ++ FsEvent.removeMarker p :: l2 →
      FsEvent.writeMarker nf ∈ l1 := by
  intro l1 p l2 h
  cases l1 with
  | nil =>
    injection h with h1 _
    exact absurd h1 (by simp)
  | cons b l1' =>
    injection h with h1 _
    rw [h1]
    exact List.mem_cons_self _ _

/-- A trace consisting of the marker write followed by marker removals
    contains no directory deletion, so it cannot split at one. -/
theorem no_delete_in_write_removes (nf : Path) (fails : Nat → Bool) (old : List Path) :
    ∀ (l1 : List FsEvent) (p : Path) (l2 : List FsEvent),
      FsEvent.writeMarker nf :: (remove_markers_loop fails old 0).2 =
        l1 ++ FsEvent.deleteDir p :: l2 → False := by
  intro l1 p l2 h
  have hd : FsEvent.deleteDir p ∈
      FsEvent.writeMarker nf :: (remove_markers_loop fails old 0).2 := by
    rw [h]
    exact List.mem_append_right l1 (List.mem_cons_self _ _)
  rcases List.mem_cons.mp hd with hd | hd
  · exact FsEvent.noConfusion hd
  · obtain ⟨q, _, hq⟩ := remove_markers_loop_events fails old 0 _ hd
    exact FsEvent.noConfusion hq

/-- Claim C3: in the event sequence of `consolidation_finalize`, every
    removal of an old fragment's marker is strictly preceded by the write
    of the new fragment's marker (the new fragment becomes visible before
    any old one is hidden, so the new marker and an old marker are never
    absent simultaneously), and every deletion of an old fragment
    directory is preceded by the removal of every old fragment's marker —
    under every combination of injected failures. -/
theorem consolidation_finalize_marker_order (nf : Path) (old : List Path) (f : ConsFail) :
    (∀ (l1 : List FsEvent) (p : Path) (l2 : List FsEvent),
      (consolidation_finalize nf old f).2 = l1 ++ FsEvent.removeMarker p :: l2 →
      FsEvent.writeMarker nf ∈ l1) ∧
    (∀ (l1 : List FsEvent) (p : Path) (l2 : List FsEvent),
      (consolidation_finalize nf old f).2 = l1 ++ FsEvent.deleteDir p :: l2 →
      ∀ q ∈ old, FsEvent.removeMarker q ∈ l1) := by
  by_cases h0 : old = []
  · constructor <;> intro l1 p l2 h <;>
      · rw [consolidation_finalize, if_pos h0] at h
        exact absurd h (nil_ne_append_cons l1 l2 _)
  · by_cases hl : f.lockFails = true
    · constructor <;> intro l1 p l2 h <;>
        · rw [consolidation_finalize, if_neg h0, if_pos hl] at h
          exact absurd h (nil_ne_append_cons l1 l2 _)
    · by_cases hf : f.finalizeFails = true
      · constructor <;> intro l1 p l2 h <;>
          · rw [consolidation_finalize, if_neg h0, if_neg hl, if_pos hf] at h
            exact absurd h (nil_ne_append_cons l1 l2 _)
      · by_cases hs : (remove_markers_loop f.removeFails old 0).1 = Status.err
        · have hev : (consolidation_finalize nf old f).2 =
              FsEvent.writeMarker nf :: (remove_markers_loop f.removeFails old 0).2 := by
            simp [consolidation_finalize, h0, hl, hf, hs]
          constructor
          · intro l1 p l2 h
            rw [hev] at h
            exact write_first_of_cons nf _ l1 p l2 h
          · intro l1 p l2 h
            rw [hev] at h
            exact (no_delete_in_write_removes nf f.removeFails old l1 p l2 h).elim
        · by_cases hu : f.unlockFails = true
          · have hev : (consolidation_finalize nf old f).2 =
                FsEvent.writeMarker nf :: (remove_markers_loop f.removeFails old 0).2 := by
              simp [consolidation_finalize, h0, hl, hf, hs, hu]
            constructor
            · intro l1 p l2 h
              rw [hev] at h
              exact write_first_of_cons nf _ l1 p l2 h
            · intro l1 p l2 h
              rw [hev] at h
              exact (no_delete_in_write_removes nf f.removeFails old l1 p l2 h).elim
          · have hok : (remove_markers_loop f.removeFails old 0).1 = Status.ok := by
              cases hval : (remove_markers_loop f.removeFails old 0).1
              · rfl
              · exact absurd hval hs
            have hev : (consolidation_finalize nf old f).2 =
                FsEvent.writeMarker nf :: (old.map FsEvent.removeMarker ++
                  (delete_dirs_loop f.deleteFails old 0).2) := by
              simp [consolidation_finalize, h0, hl, hf, hs, hu,
                remove_markers_loop_ok f.removeFails old 0 hok]
            constructor
            · intro l1 p l2 h
              rw [hev] at h
              exact write_first_of_cons nf _ l1 p l2 h
            · intro l1 p l2 h
              rw [hev] at h
              intro q hq
              have hsplit : (FsEvent.writeMarker nf :: old.map FsEvent.removeMarker) ++
                  (delete_dirs_loop f.deleteFails old 0).2 =
                  l1 ++ FsEvent.deleteDir p :: l2 := by
                simpa using h
              have hnot : FsEvent.deleteDir p ∉
                  FsEvent.writeMarker nf :: old.map FsEvent.removeMarker := by
                intro hmem
                rcases List.mem_cons.mp hmem with hmem | hmem
                · exact FsEvent.noConfusion hmem
                · obtain ⟨r, _, hr⟩ := List.mem_map.mp hmem
                  exact FsEvent.noConfusion hr
              exact mem_left_of_append_split (FsEvent.deleteDir p) _ l1 _ l2 hsplit hnot
                (FsEvent.removeMarker q)
                (List.mem_cons_of_mem _ (List.mem_map_of_mem FsEvent.removeMarker hq))

/-- Witness for C3: the all-successful run on two old fragments; the
    resulting trace is
    [write new, remove o1, remove o2, delete o1, delete o2]. -/
theorem consolidation_finalize_marker_order_witness :
    FsEvent.writeMarker "/a/n".toList ∈ [FsEvent.writeMarker "/a/n".toList] ∧
    (∀ q ∈ ["/a/o1".toList, "/a/o2".toList],
      FsEvent.removeMarker q ∈
        [FsEvent.writeMarker "/a/n".toList, FsEvent.removeMarker "/a/o1".toList,
         FsEvent.removeMarker "/a/o2".toList]) := by
  have h := consolidation_finalize_marker_order "/a/n".toList
    ["/a/o1".toList, "/a/o2".toList] ⟨false, false, fun _ => false, false, fun _ => false⟩
  constructor
  · exact h.1 [FsEvent.writeMarker "/a/n".toList] "/a/o1".toList
      [FsEvent.removeMarker "/a/o2".toList, FsEvent.deleteDir "/a/o1".toList,
       FsEvent.deleteDir "/a/o2".toList] (by decide)
  · exact h.2 [FsEvent.writeMarker "/a/n".toList, FsEvent.removeMarker "/a/o1".toList,
       FsEvent.removeMarker "/a/o2".toList] "/a/o1".toList
      [FsEvent.deleteDir "/a/o2".toList] (by decide)

/-- Opening an array whose entry heads the registry increments its count. -/
theorem open_entry_head (p : Path) (m : Int) (reg : Registry) :
    array_get_open_array_entry p ((p, m) :: reg) = (Status.ok, (p, m + 1) :: reg) := by
  simp [array_get_open_array_entry, reg_find, reg_update]

/-- Opening an unregistered array inserts its entry with count 1. -/
theorem open_entry_new (p : Path) (reg : Registry) (h : reg_find p reg = none) :
    array_get_open_array_entry p reg = (Status.ok, (p, 1) :: reg) := by
  simp [array_get_open_array_entry, h]

/-- `n` further opens on a head entry add `n` to its count. -/
theorem open_times_head (p : Path) (reg : Registry) :
    ∀ (n : Nat) (m : Int), open_times p n ((p, m) :: reg) = (p, m + n) :: reg := by
  intro n
  induction n with
  | zero => intro m; simp [open_times]
  | succ k ih =>
    intro m
    show open_times p k (array_get_open_array_entry p ((p, m) :: reg)).2 = _
    rw [open_entry_head]
    rw [ih (m + 1)]
    congr 1
    push_cast
    ring_nf

/-- Closing an array whose entry (with count ≠ 1) heads the registry
    decrements its count; at count 1 it erases the entry. -/
theorem close_entry_head (cwd home p : Path) (m : Int) (reg : Registry)
    (hp : real_dir cwd home p = p) :
    array_close cwd home p ((p, m) :: reg) =
      if m - 1 = 0 then (Status.ok, reg) else (Status.ok, (p, m - 1) :: reg) := by
  simp [array_close, hp, reg_find, reg_erase, reg_update]

/-- `k` closes on a head entry with count `M > k` subtract `k`. -/
theorem close_times_head (cwd home p : Path) (reg : Registry)
    (hp : real_dir cwd home p = p) :
    ∀ (k : Nat) (M : Int), (k : Int) < M →
      close_times cwd home p k ((p, M) :: reg) = (p, M - k) :: reg := by
  intro k
  induction k with
  | zero => intro M _; simp [close_times]
  | succ j ih =>
    intro M hM
    show close_times cwd home p j (array_close cwd home p ((p, M) :: reg)).2 = _
    rw [close_entry_head cwd home p M reg hp]
    have hM1 : ¬(M - 1 = 0) := by
      push_cast at hM
      omega
    rw [if_neg hM1]
    simp only
    rw [ih (M - 1) (by push_cast at hM ⊢; omega)]
    congr 1
    push_cast
    ring_nf

/-- `M` closes on a head entry with count `M ≥ 1` erase the entry. -/
theorem close_times_all (cwd home p : Path) (reg : Registry)
    (hp : real_dir cwd home p = p) :
    ∀ (M : Nat), 1 ≤ M →
      close_times cwd home p M ((p, (M : Int)) :: reg) = reg := by
  intro M
  induction M with
  | zero => intro h; omega
  | succ j ih =>
    intro _
    show close_times cwd home p j (array_close cwd home p ((p, ((j : Int) + 1)) :: reg)).2 = _
    rw [close_entry_head cwd home p _ reg hp]
    by_cases hj : j = 0
    · subst hj
      norm_num [close_times]
    · have h1 : ¬((j : Int) + 1 - 1 = 0) := by omega
      rw [if_neg h1]
      simp only
      have h2 : (j : Int) + 1 - 1 = (j : Int) := by ring
      rw [h2]
      exact ih (by omega)

/-- Claim C9: starting from a registry with no entry for the canonical
    array path `p`, each of `N` opens increments the entry's count by
    exactly one (creating it at 1); each close decrements by exactly one,
    each returning Ok; after `N` opens and `N` closes the registry is back
    to its initial state with no entry for `p`, and after `N` opens and
    only `N - 1` closes the entry is still present with count 1. -/
theorem open_close_refcount (cwd home p : Path) (reg : Registry) (N : Nat)
    (hp : real_dir cwd home p = p) (h0 : reg_find p reg = none) (hN : 1 ≤ N) :
    (∀ k : Nat, k ≤ N →
      open_times p k reg = if k = 0 then reg else (p, (k : Int)) :: reg) ∧
    (∀ k : Nat, k < N →
      close_times cwd home p k (open_times p N reg) = (p, (N : Int) - k) :: reg) ∧
    (∀ k : Nat, k < N →
      (array_close cwd home p (close_times cwd home p k (open_times p N reg))).1 =
        Status.ok) ∧
    close_times cwd home p N (open_times p N reg) = reg ∧
    reg_find p (close_times cwd home p N (open_times p N reg)) = none ∧
    reg_find p (close_times cwd home p (N - 1) (open_times p N reg)) = some 1 := by
  have hopen : ∀ k : Nat, open_times p k reg =
      if k = 0 then reg else (p, (k : Int)) :: reg := by
    intro k
    cases k with
    | zero => simp [open_times]
    | succ j =>
      show open_times p j (array_get_open_array_entry p reg).2 = _
      rw [open_entry_new p reg h0]
      rw [open_times_head p reg j 1]
      simp
      ring_nf
  have hN' : open_times p N reg = (p, (N : Int)) :: reg := by
    rw [hopen N, if_neg (by omega)]
  refine ⟨fun k _ => hopen k, ?_, ?_, ?_, ?_, ?_⟩
  · intro k hk
    rw [hN']
    exact close_times_head cwd home p reg hp k (N : Int) (by exact_mod_cast hk)
  · intro k hk
    rw [hN', close_times_head cwd home p reg hp k (N : Int) (by exact_mod_cast hk)]
    rw [close_entry_head cwd home p _ reg hp]
    split <;> rfl
  · rw [hN']
    exact close_times_all cwd home p reg hp N hN
  · rw [hN', close_times_all cwd home p reg hp N hN]
    exact h0
  · rw [hN', close_times_head cwd home p reg hp (N - 1) (N : Int) (by omega)]
    have : (N : Int) - (N - 1 : Nat) = 1 := by omega
    rw [this]
    simp [reg_find]

/-- Witness for C9: three opens and then two or three closes of "/a" on the
    initially empty registry. -/
theorem open_close_refcount_witness :
    real_dir "/c".toList "/h".toList "/a".toList = "/a".toList ∧
    reg_find "/a".toList ([] : Registry) = none ∧
    close_times "/c".toList "/h".toList "/a".toList 3
      (open_times "/a".toList 3 []) = [] ∧
    reg_find "/a".toList (close_times "/c".toList "/h".toList "/a".toList 2
      (open_times "/a".toList 3 [])) = some 1 := by
  have h := open_close_refcount "/c".toList "/h".toList "/a".toList [] 3
    (by decide) rfl (by omega)
  exact ⟨by decide, rfl, h.2.2.2.1, h.2.2.2.2.2⟩

/-- Claim C8: the create operations enforce the containment table against
    the filesystem state at call time, and in each rejected case return a
    containment error having performed no filesystem mutation:
    `workspace_create` rejects any TileDB parent, `group_create` rejects
    any parent that is not a workspace or group, and `metadata_create`
    rejects any parent that is not a workspace, group or array. -/
theorem create_containment_enforced (fs : FS) (cwd home p : Path) :
    ((is_workspace fs (parent_dir cwd home p) = true ∨
      is_group fs (parent_dir cwd home p) = true ∨
      is_array fs (parent_dir cwd home p) = true ∨
      is_metadata fs (parent_dir cwd home p) = true) →
      workspace_create fs cwd home p = (Status.err, [])) ∧
    ((is_workspace fs (parent_dir cwd home p) = false ∧
      is_group fs (parent_dir cwd home p) = false) →
      group_create fs cwd home p = (Status.err, [])) ∧
    ((is_workspace fs (parent_dir cwd home p) = false ∧
      is_group fs (parent_dir cwd home p) = false ∧
      is_array fs (parent_dir cwd home p) = false) →
      metadata_create fs cwd home p = (Status.err, [])) := by
  refine ⟨?_, ?_, ?_⟩
  · intro h
    have hc : (is_workspace fs (parent_dir cwd home p) ||
        is_group fs (parent_dir cwd home p) ||
        is_array fs (parent_dir cwd home p) ||
        is_metadata fs (parent_dir cwd home p)) = true := by
      rcases h with h | h | h | h <;> simp [h]
    simp [workspace_create, hc]
  · rintro ⟨h1, h2⟩
    simp [group_create, h1, h2]
  · rintro ⟨h1, h2, h3⟩
    simp [metadata_create, h1, h2, h3]

/-- Witness for C8: a workspace under a workspace parent, a group under an
    array parent, and metadata directly under the filesystem root, each on
    a concrete filesystem. -/
theorem create_containment_enforced_witness :
    workspace_create (FS.ofLists ["/w".toList] ["/w/__tiledb_workspace.tdb".toList])
      "/c".toList "/h".toList "/w/x".toList = (Status.err, []) ∧
    group_create (FS.ofLists ["/a".toList] ["/a/__array_schema.tdb".toList])
      "/c".toList "/h".toList "/a/g".toList = (Status.err, []) ∧
    metadata_create (FS.ofLists [] []) "/c".toList "/h".toList "/m".toList =
      (Status.err, []) := by
  refine ⟨?_, ?_, ?_⟩
  · exact (create_containment_enforced
      (FS.ofLists ["/w".toList] ["/w/__tiledb_workspace.tdb".toList])
      "/c".toList "/h".toList "/w/x".toList).1 (Or.inl (by decide))
  · exact (create_containment_enforced
      (FS.ofLists ["/a".toList] ["/a/__array_schema.tdb".toList])
      "/c".toList "/h".toList "/a/g".toList).2.1 ⟨by decide, by decide⟩
  · exact (create_containment_enforced (FS.ofLists [] [])
      "/c".toList "/h".toList "/m".toList).2.2 ⟨by decide, by decide, by decide⟩

/-- `cmp_row_order` only ever returns -1, 0 or 1, for any element test. -/
theorem cmp_row_order_tri {T : Type} (lt : T → T → Bool) :
    ∀ (a b : List T), cmp_row_order lt a b = -1 ∨ cmp_row_order lt a b = 0 ∨
      cmp_row_order lt a b = 1 := by
  intro a
  induction a with
  | nil => intro b; cases b <;> simp [cmp_row_order]
  | cons x xs ih =>
    intro b
    cases b with
    | nil => simp [cmp_row_order]
    | cons y ys =>
      by_cases h1 : lt x y = true
      · simp [cmp_row_order, h1]
      · by_cases h2 : lt y x = true
        · simp [cmp_row_order, h1, h2]
        · simpa [cmp_row_order, h1, h2] using ih ys

/-- `cmp_row_order` is antisymmetric for any asymmetric element test. -/
theorem cmp_row_order_antisym {T : Type} (lt : T → T → Bool)
    (hasym : ∀ x y, lt x y = true → lt y x = false) :
    ∀ (a b : List T), cmp_row_order lt a b = -(cmp_row_order lt b a) := by
  intro a
  induction a with
  | nil => intro b; cases b <;> simp [cmp_row_order]
  | cons x xs ih =>
    intro b
    cases b with
    | nil => simp [cmp_row_order]
    | cons y ys =>
      by_cases h1 : lt x y = true
      · simp [cmp_row_order, h1, hasym x y h1]
      · by_cases h2 : lt y x = true
        · simp [cmp_row_order, h1, h2, hasym y x h2]
        · simpa [cmp_row_order, h1, h2] using ih ys

/-- `cmp_row_order` is transitive on equal-length tuples over a linear
    order (the integer instantiations, and NaN-free floats via the
    reduction below). -/
theorem cmp_row_order_trans {T : Type} [LinearOrder T] :
    ∀ (a b c : List T), a.length = b.length → b.length = c.length →
      cmp_row_order (fun x y => decide (x < y)) a b ≤ 0 →
      cmp_row_order (fun x y => decide (x < y)) b c ≤ 0 →
      cmp_row_order (fun x y => decide (x < y)) a c ≤ 0 := by
  intro a
  induction a with
  | nil =>
    intro b c _ _ _ _
    cases c <;> simp [cmp_row_order]
  | cons x xs ih =>
    intro b c hab hbc h1 h2
    cases b with
    | nil => simp at hab
    | cons y ys =>
      cases c with
      | nil => simp at hbc
      | cons z zs =>
        simp only [List.length_cons, Nat.add_right_cancel_iff] at hab hbc
        by_cases hxy : x < y
        · have hxz : x < z := by
            by_cases hyz : y < z
            · exact lt_trans hxy hyz
            · by_cases hzy : z < y
              · exfalso
                simp [cmp_row_order, hyz, hzy] at h2
              · have : y = z := le_antisymm (not_lt.mp hzy) (not_lt.mp hyz)
                exact this ▸ hxy
          simp [cmp_row_order, hxz]
        · by_cases hyx : y < x
          · exfalso
            simp [cmp_row_order, hxy, hyx] at h1
          · have hxy' : x = y := le_antisymm (not_lt.mp hyx) (not_lt.mp hxy)
            subst hxy'
            simp only [cmp_row_order, hxy, decide_eq_true_eq, if_neg hxy] at h1
            by_cases hyz : x < z
            · simp [cmp_row_order, hyz]
            · by_cases hzy : z < x
              · exfalso
                simp [cmp_row_order, hyz, hzy] at h2
              · simp only [cmp_row_order, hyz, hzy, decide_eq_true_eq, if_neg] at h2 ⊢
                exact ih ys zs hab hbc h1 h2

/-- The float comparator on NaN-free tuples is the integer comparator. -/
theorem cmp_row_order_float_map_some :
    ∀ (a b : List Int), cmp_row_order float_lt (a.map some) (b.map some) =
      cmp_row_order (fun x y : Int => decide (x < y)) a b := by
  intro a
  induction a with
  | nil => intro b; cases b <;> simp [cmp_row_order]
  | cons x xs ih =>
    intro b
    cases b with
    | nil => simp [cmp_row_order]
    | cons y ys => simp [cmp_row_order, float_lt, ih ys]

/-- A NaN-free float tuple is a tuple of finite values. -/
theorem eq_map_some_of_no_nan :
    ∀ (a : List FloatVal), (∀ v ∈ a, v ≠ none) → ∃ a' : List Int, a = a'.map some := by
  intro a
  induction a with
  | nil => exact fun _ => ⟨[], rfl⟩
  | cons v vs ih =>
    intro h
    obtain ⟨vs', hvs⟩ := ih (fun u hu => h u (List.mem_cons_of_mem v hu))
    cases v with
    | none => exact absurd rfl (h none (List.mem_cons_self _ _))
    | some x => exact ⟨x :: vs', by rw [hvs]; rfl⟩

/-- Claim C7 (amended): for the integer element types the row-major and
    column-major comparators return a value in {-1, 0, +1}, satisfy
    cmp(a,b) = -cmp(b,a), are transitive on equal-dimension tuples (so they
    are total orders), and agree with each other on unary (dim_num = 1)
    comparisons.  For the float element types the value-range, antisymmetry
    and unary-agreement laws hold on all inputs, and transitivity holds on
    NaN-free inputs; by `cmp_row_order_float_not_transitive` it fails in
    the presence of NaN, so there the comparators are not total orders. -/
theorem cmp_order_laws :
    (∀ a b : List Int,
      (cmp_row_order int_lt a b = -1 ∨ cmp_row_order int_lt a b = 0 ∨
        cmp_row_order int_lt a b = 1) ∧
      (cmp_col_order int_lt a b = -1 ∨ cmp_col_order int_lt a b = 0 ∨
        cmp_col_order int_lt a b = 1) ∧
      cmp_row_order int_lt a b = -(cmp_row_order int_lt b a) ∧
      cmp_col_order int_lt a b = -(cmp_col_order int_lt b a)) ∧
    (∀ a b c : List Int, a.length = b.length → b.length = c.length →
      (cmp_row_order int_lt a b ≤ 0 → cmp_row_order int_lt b c ≤ 0 →
        cmp_row_order int_lt a c ≤ 0) ∧
      (cmp_col_order int_lt a b ≤ 0 → cmp_col_order int_lt b c ≤ 0 →
        cmp_col_order int_lt a c ≤ 0)) ∧
    (∀ x y : Int, cmp_row_order int_lt [x] [y] = cmp_col_order int_lt [x] [y]) ∧
    (∀ a b : List FloatVal,
      (cmp_row_order float_lt a b = -1 ∨ cmp_row_order float_lt a b = 0 ∨
        cmp_row_order float_lt a b = 1) ∧
      (cmp_col_order float_lt a b = -1 ∨ cmp_col_order float_lt a b = 0 ∨
        cmp_col_order float_lt a b = 1) ∧
      cmp_row_order float_lt a b = -(cmp_row_order float_lt b a) ∧
      cmp_col_order float_lt a b = -(cmp_col_order float_lt b a)) ∧
    (∀ a b c : List FloatVal, (∀ v ∈ a, v ≠ none) → (∀ v ∈ b, v ≠ none) →
      (∀ v ∈ c, v ≠ none) → a.length = b.length → b.length = c.length →
      (cmp_row_order float_lt a b ≤ 0 → cmp_row_order float_lt b c ≤ 0 →
        cmp_row_order float_lt a c ≤ 0) ∧
      (cmp_col_order float_lt a b ≤ 0 → cmp_col_order float_lt b c ≤ 0 →
        cmp_col_order float_lt a c ≤ 0)) ∧
    (∀ x y : FloatVal, cmp_row_order float_lt [x] [y] = cmp_col_order float_lt [x] [y]) := by
  have hint : int_lt = fun x y : Int => decide (x < y) := rfl
  have hasym_int : ∀ x y : Int, int_lt x y = true → int_lt y x = false := by
    intro x y h
    simp [int_lt] at h ⊢
    omega
  have hasym_float : ∀ x y : FloatVal, float_lt x y = true → float_lt y x = false := by
    intro x y h
    cases x <;> cases y <;> simp [float_lt] at h ⊢
    omega
  refine ⟨?_, ?_, ?_, ?_, ?_, ?_⟩
  · intro a b
    exact ⟨cmp_row_order_tri int_lt a b, cmp_row_order_tri int_lt a.reverse b.reverse,
      cmp_row_order_antisym int_lt hasym_int a b,
      cmp_row_order_antisym int_lt hasym_int a.reverse b.reverse⟩
  · intro a b c hab hbc
    constructor
    · rw [hint]
      exact cmp_row_order_trans a b c hab hbc
    · rw [cmp_col_order, cmp_col_order, cmp_col_order, hint]
      exact cmp_row_order_trans a.reverse b.reverse c.reverse
        (by simpa using hab) (by simpa using hbc)
  · intro x y
    rfl
  · intro a b
    exact ⟨cmp_row_order_tri float_lt a b, cmp_row_order_tri float_lt a.reverse b.reverse,
      cmp_row_order_antisym float_lt hasym_float a b,
      cmp_row_order_antisym float_lt hasym_float a.reverse b.reverse⟩
  · intro a b c ha hb hc hab hbc
    obtain ⟨a', rfl⟩ := eq_map_some_of_no_nan a ha
    obtain ⟨b', rfl⟩ := eq_map_some_of_no_nan b hb
    obtain ⟨c', rfl⟩ := eq_map_some_of_no_nan c hc
    have hab' : a'.length = b'.length := by simpa using hab
    have hbc' : b'.length = c'.length := by simpa using hbc
    constructor
    · rw [cmp_row_order_float_map_some a' b', cmp_row_order_float_map_some b' c',
        cmp_row_order_float_map_some a' c']
      exact cmp_row_order_trans a' b' c' hab' hbc'
    · rw [cmp_col_order, cmp_col_order, cmp_col_order,
        ← List.map_reverse, ← List.map_reverse, ← List.map_reverse,
        cmp_row_order_float_map_some a'.reverse b'.reverse,
        cmp_row_order_float_map_some b'.reverse c'.reverse,
        cmp_row_order_float_map_some a'.reverse c'.reverse]
      exact cmp_row_order_trans a'.reverse b'.reverse c'.reverse
        (by simpa using hab') (by simpa using hbc')
  · intro x y
    rfl

/-- Witness for the amended C7 at concrete 2-dimensional inputs. -/
theorem cmp_order_laws_witness :
    (cmp_row_order int_lt [1, 2] [1, 3] = -1 ∨ cmp_row_order int_lt [1, 2] [1, 3] = 0 ∨
      cmp_row_order int_lt [1, 2] [1, 3] = 1) ∧
    (cmp_row_order int_lt [1, 2] [1, 3] ≤ 0 → cmp_row_order int_lt [1, 3] [2, 0] ≤ 0 →
      cmp_row_order int_lt [1, 2] [2, 0] ≤ 0) ∧
    (cmp_row_order float_lt [some 1, some 2] [some 1, some 3] ≤ 0 →
      cmp_row_order float_lt [some 1, some 3] [some 2, some 0] ≤ 0 →
      cmp_row_order float_lt [some 1, some 2] [some 2, some 0] ≤ 0) := by
  have h := cmp_order_laws
  refine ⟨(h.1 [1, 2] [1, 3]).1, (h.2.1 [1, 2] [1, 3] [2, 0] rfl rfl).1, ?_⟩
  exact (h.2.2.2.2.1 [some 1, some 2] [some 1, some 3] [some 2, some 0]
    (by decide) (by decide) (by decide) rfl rfl).1

/-- `split_slash` always yields at least one piece. -/
theorem split_slash_ne_nil : ∀ s : Path, split_slash s ≠ [] := by
  intro s
  cases s with
  | nil => simp [split_slash]
  | cons c rest =>
    by_cases hc : c = '/'
    · simp [split_slash, hc]
    · simp only [split_slash, hc, if_false]
      cases hsp : split_slash rest with
      | nil => simp
      | cons t ts => simp

/-- Pieces produced by `split_slash` contain no '/'. -/
theorem split_slash_no_slash_mem : ∀ (s t : Path), t ∈ split_slash s → '/' ∉ t := by
  intro s
  induction s with
  | nil =>
    intro t ht
    simp [split_slash] at ht
    subst ht
    simp
  | cons c rest ih =>
    intro t ht
    by_cases hc : c = '/'
    · simp only [split_slash, hc, if_true, List.mem_cons] at ht
      rcases ht with ht | ht
      · subst ht; simp
      · exact ih t ht
    · simp only [split_slash, hc, if_false] at ht
      cases hsp : split_slash rest with
      | nil => exact absurd hsp (split_slash_ne_nil rest)
      | cons u us =>
        rw [hsp] at ht
        rcases List.mem_cons.mp ht with ht | ht
        · subst ht
          intro hmem
          rcases List.mem_cons.mp hmem with hm | hm
          · exact hc hm.symm
          · exact ih u (hsp ▸ List.mem_cons_self u us) hm
        · exact ih t (hsp ▸ List.mem_cons_of_mem u ht)

/-- Splitting at slashes and rejoining with slashes is the identity. -/
theorem intercalate_split_slash : ∀ s : Path, intercalate_slash (split_slash s) = s := by
  intro s
  induction s with
  | nil => rfl
  | cons c rest ih =>
    by_cases hc : c = '/'
    · subst hc
      show intercalate_slash ([] :: split_slash rest) = _
      cases hsp : split_slash rest with
      | nil => exact absurd hsp (split_slash_ne_nil rest)
      | cons t ts =>
        show ([] : Path) ++ '/' :: intercalate_slash (t :: ts) = _
        rw [List.nil_append, ← hsp, ih]
    · simp only [split_slash, hc, if_false]
      cases hsp : split_slash rest with
      | nil => exact absurd hsp (split_slash_ne_nil rest)
      | cons t ts =>
        cases ts with
        | nil =>
          show c :: t = c :: rest
          rw [hsp] at ih
          exact congrArg (c :: ·) ih
        | cons u us =>
          show (c :: t) ++ '/' :: intercalate_slash (u :: us) = c :: rest
          rw [hsp] at ih
          show c :: (t ++ '/' :: intercalate_slash (u :: us)) = c :: rest
          exact congrArg (c :: ·) ih

/-- A slash-free list is a single `split_slash` piece. -/
theorem split_slash_of_no_slash : ∀ t : Path, '/' ∉ t → split_slash t = [t] := by
  intro t
  induction t with
  | nil => intro _; rfl
  | cons c r ih =>
    intro h
    have hc : ¬(c = '/') := fun hcc => h (hcc ▸ List.mem_cons_self c r)
    have hr := ih (fun hm => h (List.mem_cons_of_mem c hm))
    simp only [split_slash, hc, if_false, hr]

/-- `split_slash` peels a slash-free piece before a '/'. -/
theorem split_slash_append : ∀ (t s : Path), '/' ∉ t →
    split_slash (t ++ '/' :: s) = t :: split_slash s := by
  intro t
  induction t with
  | nil => intro s _; simp [split_slash]
  | cons c r ih =>
    intro s h
    have hc : ¬(c = '/') := fun hcc => h (hcc ▸ List.mem_cons_self c r)
    have hr := ih s (fun hm => h (List.mem_cons_of_mem c hm))
    simp only [List.cons_append, split_slash, hc, if_false, List.append_eq, hr]

/-- Rejoining slash-free pieces and splitting again is the identity. -/
theorem split_slash_intercalate : ∀ ts : List Path, ts ≠ [] →
    (∀ t ∈ ts, '/' ∉ t) → split_slash (intercalate_slash ts) = ts := by
  intro ts
  induction ts with
  | nil => intro h _; exact absurd rfl h
  | cons t us ih =>
    intro _ hts
    cases us with
    | nil =>
      show split_slash t = [t]
      exact split_slash_of_no_slash t (hts t (List.mem_cons_self _ _))
    | cons u vs =>
      show split_slash (t ++ '/' :: intercalate_slash (u :: vs)) = _
      rw [split_slash_append t _ (hts t (List.mem_cons_self _ _))]
      rw [ih (by simp) (fun w hw => hts w (List.mem_cons_of_mem t hw))]

/-- A slash-free list has no adjacent slashes. -/
theorem chain_of_no_slash : ∀ t : Path, '/' ∉ t → List.Chain' no_both t := by
  intro t
  induction t with
  | nil => intro _; exact List.chain'_nil
  | cons c r ih =>
    intro h
    cases r with
    | nil => exact List.chain'_singleton c
    | cons d rr =>
      refine List.Chain'.cons ?_ (ih (fun hm => h (List.mem_cons_of_mem c hm)))
      intro hcd
      exact h (hcd.1 ▸ List.mem_cons_self c _)

/-- A '/' followed by slash-separated nonempty slash-free pieces has no
    adjacent slashes. -/
theorem no_adj_intercalate : ∀ ts : List Path, (∀ t ∈ ts, t ≠ [] ∧ '/' ∉ t) →
    List.Chain' no_both ('/' :: intercalate_slash ts) := by
  intro ts
  induction ts with
  | nil => intro _; exact List.chain'_singleton '/'
  | cons t us ih =>
    intro h
    have ht := h t (List.mem_cons_self _ _)
    cases us with
    | nil =>
      show List.Chain' no_both ('/' :: t)
      rw [List.chain'_cons']
      refine ⟨?_, chain_of_no_slash t ht.2⟩
      intro y hy
      intro hboth
      exact ht.2 (hboth.2 ▸ List.mem_of_mem_head? hy)
    | cons u vs =>
      show List.Chain' no_both ('/' :: (t ++ '/' :: intercalate_slash (u :: vs)))
      have hsplit : '/' :: (t ++ '/' :: intercalate_slash (u :: vs)) =
          ('/' :: t) ++ ('/' :: intercalate_slash (u :: vs)) := by simp
      rw [hsplit, List.chain'_append]
      refine ⟨?_, ih (fun w hw => h w (List.mem_cons_of_mem t hw)), ?_⟩
      · rw [List.chain'_cons']
        refine ⟨?_, chain_of_no_slash t ht.2⟩
        intro y hy hboth
        exact ht.2 (hboth.2 ▸ List.mem_of_mem_head? hy)
      · intro x hx y hy
        intro hboth
        have hxt : x ∈ '/' :: t := List.mem_of_mem_getLast? hx
        rcases List.mem_cons.mp hxt with hxt | hxt
        · -- x = '/', so '/'::t ends in '/': t = [] or t ends in '/', both impossible
          have : ('/' :: t).getLast? = some x := hx
          cases t with
          | nil =>
            -- getLast? ['/'] = some '/', and y head of '/'::…, fine: but t = [] contradicts ht.1
            exact ht.1 rfl
          | cons a r =>
            have hlast : ('/' :: a :: r).getLast? = (a :: r).getLast? := by
              simp [List.getLast?_cons_cons]
            rw [hlast] at hx
            exact ht.2 (hboth.1 ▸ List.mem_of_mem_getLast? hx)
        · exact ht.2 (hboth.1 ▸ hxt)

/-- `std::unique` leaves a list without adjacent slashes unchanged. -/
theorem dedup_after_eq : ∀ (l : Path) (prev : Char),
    List.Chain' no_both (prev :: l) → dedup_after prev l = l := by
  intro l
  induction l with
  | nil => intro prev _; rfl
  | cons b r ih =>
    intro prev hch
    rw [List.chain'_cons] at hch
    have hb : both_slashes prev b = false := by
      have hnb := hch.1
      simp only [no_both] at hnb
      by_cases h1 : prev = '/'
      · by_cases h2 : b = '/'
        · exact absurd ⟨h1, h2⟩ hnb
        · simp [both_slashes, h2]
      · simp [both_slashes, h1]
    rw [dedup_after, hb]
    simp only [Bool.false_eq_true, if_false]
    exact congrArg (b :: ·) (ih b hch.2)

/-- The dot-purging loop is the identity (up to the accumulator) on token
    lists without dot components. -/
theorem purge_dots_loop_no_dots : ∀ (ts acc : List Path),
    (∀ t ∈ ts, t ≠ ['.'] ∧ t ≠ ['.', '.']) →
    purge_dots_loop ts acc = some (acc ++ ts) := by
  intro ts
  induction ts with
  | nil => intro acc _; simp [purge_dots_loop]
  | cons t ts' ih =>
    intro acc h
    have ht := h t (List.mem_cons_self _ _)
    rw [purge_dots_loop, if_neg ht.1, if_neg ht.2,
      ih (acc ++ [t]) (fun u hu => h u (List.mem_cons_of_mem t hu))]
    simp

/-- The dot-purging loop keeps only well-formed components when fed
    nonempty slash-free tokens and a well-formed accumulator. -/
theorem purge_dots_loop_good : ∀ (ts acc finals : List Path),
    (∀ t ∈ ts, t ≠ [] ∧ '/' ∉ t) → (∀ t ∈ acc, GoodToken t) →
    purge_dots_loop ts acc = some finals → ∀ t ∈ finals, GoodToken t := by
  intro ts
  induction ts with
  | nil =>
    intro acc finals _ hacc h
    rw [purge_dots_loop] at h
    injection h with h
    exact h ▸ hacc
  | cons t ts' ih =>
    intro acc finals hts hacc h
    have hts' : ∀ u ∈ ts', u ≠ [] ∧ '/' ∉ u :=
      fun u hu => hts u (List.mem_cons_of_mem t hu)
    by_cases h1 : t = ['.']
    · rw [purge_dots_loop, if_pos h1] at h
      exact ih acc finals hts' hacc h
    · by_cases h2 : t = ['.', '.']
      · rw [purge_dots_loop, if_neg h1, if_pos h2] at h
        by_cases hacc0 : acc = []
        · rw [if_pos hacc0] at h
          exact absurd h (by simp)
        · rw [if_neg hacc0] at h
          refine ih acc.dropLast finals hts' ?_ h
          intro u hu
          exact hacc u ((List.dropLast_sublist acc).subset hu)
      · rw [purge_dots_loop, if_neg h1, if_neg h2] at h
        refine ih (acc ++ [t]) finals hts' ?_ h
        intro u hu
        rcases List.mem_append.mp hu with hu | hu
        · exact hacc u hu
        · have hut : u = t := by simpa using hu
          subst hut
          exact ⟨(hts u (List.mem_cons_self _ _)).1, (hts u (List.mem_cons_self _ _)).2,
            h1, h2⟩

/-- Reassembling well-formed components yields a canonical path. -/
theorem good_path_assemble (finals : List Path) (hf : ∀ t ∈ finals, GoodToken t) :
    GoodPath ('/' :: intercalate_slash finals) := by
  cases finals with
  | nil => left; rfl
  | cons t ts =>
    right
    have ht := hf t (List.mem_cons_self _ _)
    refine ⟨rfl, ?_, ?_⟩
    · show intercalate_slash (t :: ts) ≠ []
      cases ts with
      | nil => exact ht.1
      | cons u vs =>
        show t ++ '/' :: intercalate_slash (u :: vs) ≠ []
        simp
    · show ∀ u ∈ split_slash (intercalate_slash (t :: ts)), GoodToken u
      rw [split_slash_intercalate (t :: ts) (by simp) (fun u hu => (hf u hu).2.1)]
      exact hf

/-- Canonical paths are fixpoints of `real_dir`. -/
theorem real_dir_fixpoint (cwd home p : Path) (hp : GoodPath p) :
    real_dir cwd home p = p := by
  rcases hp with h | ⟨hhead, hrest, htok⟩
  · subst h
    rfl
  · obtain ⟨rest, rfl⟩ : ∃ rest, p = '/' :: rest := by
      cases p with
      | nil => simp at hhead
      | cons c r =>
        simp only [List.head?_cons, Option.some.injEq] at hhead
        exact ⟨r, by rw [hhead]⟩
    simp only [List.drop_one, List.tail_cons] at hrest htok
    have h1 : ¬('/' :: rest = [] ∨ '/' :: rest = ['.'] ∨ '/' :: rest = ['.', '/']) := by
      simp
    have h2 : ¬('/' :: rest = ['~']) := by simp
    have h3 : ¬('/' :: rest = ['/']) := by simpa using hrest
    have h4 : starts_with ('/' :: rest) ['/'] = true := by
      simp [starts_with, List.isPrefixOf]
    rw [real_dir, if_neg h1, if_neg h2, if_neg h3]
    simp only [h4, if_true]
    have hchain : List.Chain' no_both ('/' :: rest) := by
      have := no_adj_intercalate (split_slash rest)
        (fun t ht => ⟨(htok t ht).1, (htok t ht).2.1⟩)
      rwa [intercalate_split_slash rest] at this
    have hded : adjacent_slashes_dedup ('/' :: '/' :: rest) = '/' :: rest := by
      show '/' :: dedup_after '/' ('/' :: rest) = _
      rw [dedup_after]
      simp only [both_slashes, beq_self_eq_true, Bool.and_self, if_true]
      exact congrArg ('/' :: ·) (dedup_after_eq rest '/' hchain)
    rw [hded]
    rw [purge_dots_from_path, if_neg (by simpa using hrest)]
    have hfil : (split_slash (('/' :: rest).drop 1)).filter (fun t => t ≠ []) =
        split_slash rest := by
      simp only [List.drop_one, List.tail_cons]
      apply List.filter_eq_self.mpr
      intro t ht
      simpa using (htok t ht).1
    rw [hfil]
    simp only [purge_dots_loop_no_dots (split_slash rest) []
      (fun t ht => ⟨(htok t ht).2.2.1, (htok t ht).2.2.2⟩), List.nil_append]
    rw [intercalate_split_slash rest]

/-- `purge_dots_from_path` returns the empty string or a canonical path. -/
theorem purge_output_good (q : Path) :
    purge_dots_from_path q = [] ∨ GoodPath (purge_dots_from_path q) := by
  by_cases h0 : q = [] ∨ q = ['/']
  · rcases h0 with h | h <;> subst h
    · left; rfl
    · right; left; rfl
  · rw [purge_dots_from_path, if_neg h0]
    cases hpl : purge_dots_loop ((split_slash (q.drop 1)).filter (fun t => ¬(t = []))) []
      with
    | none =>
      left
      simp only [hpl]
    | some finals =>
      right
      simp only [hpl]
      have hgood : ∀ t ∈ finals, GoodToken t := by
        apply purge_dots_loop_good _ [] finals ?_ (by simp) hpl
        intro t ht
        have hmem := List.mem_filter.mp ht
        refine ⟨by simpa using hmem.2, split_slash_no_slash_mem _ t hmem.1⟩
      exact good_path_assemble finals hgood

/-- What `real_dir` returns is the empty string (invalid input) or a
    canonical path, provided cwd and home are canonical. -/
theorem real_dir_output_good (cwd home p : Path)
    (hcwd : GoodPath cwd) (hhome : GoodPath home) :
    real_dir cwd home p = [] ∨ GoodPath (real_dir cwd home p) := by
  by_cases h1 : p = [] ∨ p = ['.'] ∨ p = ['.', '/']
  · right
    rw [real_dir, if_pos h1]
    exact hcwd
  · by_cases h2 : p = ['~']
    · right
      rw [real_dir, if_neg h1, if_pos h2]
      exact hhome
    · by_cases h3 : p = ['/']
      · right
        rw [real_dir, if_neg h1, if_neg h2, if_pos h3]
        left
        rfl
      · rw [real_dir, if_neg h1, if_neg h2, if_neg h3]
        exact purge_output_good _

/-- Claim C6 (amended): canonicalisation is idempotent on every input whose
    canonical form is nonempty (i.e. valid), given a canonical current
    directory and home directory; for invalid inputs `real_dir` returns the
    empty string and — by `real_dir_not_idempotent_on_invalid` — a second
    application returns the current directory instead. -/
theorem real_dir_idempotent_on_valid (cwd home p : Path)
    (hcwd : GoodPath cwd) (hhome : GoodPath home)
    (hne : real_dir cwd home p ≠ []) :
    real_dir cwd home (real_dir cwd home p) = real_dir cwd home p := by
  rcases real_dir_output_good cwd home p hcwd hhome with h | h
  · exact absurd h hne
  · exact real_dir_fixpoint cwd home _ h

/-- Witness for the amended C6 at the spec's own example
    "/a//b/../c/./d" (canonical form "/a/c/d"). -/
theorem real_dir_idempotent_on_valid_witness :
    GoodPath "/c".toList ∧ GoodPath "/h".toList ∧
    real_dir "/c".toList "/h".toList "/a//b/../c/./d".toList ≠ [] ∧
    real_dir "/c".toList "/h".toList
      (real_dir "/c".toList "/h".toList "/a//b/../c/./d".toList) =
      real_dir "/c".toList "/h".toList "/a//b/../c/./d".toList := by
  refine ⟨by decide, by decide, by decide, ?_⟩
  exact real_dir_idempotent_on_valid "/c".toList "/h".toList "/a//b/../c/./d".toList
    (by decide) (by decide) (by decide)

/-- `takeWhile` stops exactly at the first failing element. -/
theorem takeWhile_append_break {α : Type} (p : α → Bool) :
    ∀ (xs : List α) (y : α) (ys : List α), (∀ x ∈ xs, p x = true) → p y = false →
      (xs ++ y :: ys).takeWhile p = xs := by
  intro xs
  induction xs with
  | nil =>
    intro y ys _ hy
    simp [List.takeWhile_cons, hy]
  | cons a xs' ih =>
    intro y ys hall hy
    have ha := hall a (List.mem_cons_self _ _)
    simp only [List.cons_append, List.takeWhile_cons, ha, if_true]
    rw [ih y ys (fun x hx => hall x (List.mem_cons_of_mem a hx)) hy]

/-- `dropWhile` drops exactly up to the first failing element. -/
theorem dropWhile_append_break {α : Type} (p : α → Bool) :
    ∀ (xs : List α) (y : α) (ys : List α), (∀ x ∈ xs, p x = true) → p y = false →
      (xs ++ y :: ys).dropWhile p = y :: ys := by
  intro xs
  induction xs with
  | nil =>
    intro y ys _ hy
    simp [List.dropWhile_cons, hy]
  | cons a xs' ih =>
    intro y ys hall hy
    have ha := hall a (List.mem_cons_self _ _)
    simp only [List.cons_append, List.dropWhile_cons, ha, if_true]
    exact ih y ys (fun x hx => hall x (List.mem_cons_of_mem a hx)) hy

/-- `takeWhile` of an all-satisfying list is the whole list. -/
theorem takeWhile_all {α : Type} (p : α → Bool) :
    ∀ xs : List α, (∀ x ∈ xs, p x = true) → xs.takeWhile p = xs := by
  intro xs
  induction xs with
  | nil => intro _; rfl
  | cons a xs' ih =>
    intro hall
    simp only [List.takeWhile_cons, hall a (List.mem_cons_self _ _), if_true]
    rw [ih (fun x hx => hall x (List.mem_cons_of_mem a hx))]

/-- A decimal digit is none of the delimiter or sign characters. -/
theorem digit_ne (c : Char) (h : c.isDigit = true) :
    ¬(c = '/') ∧ ¬(c = '_') ∧ ¬(c = '-') ∧ ¬(c = '+') := by
  refine ⟨?_, ?_, ?_, ?_⟩ <;> intro hc <;> subst hc <;> exact absurd h (by decide)

/-- The basename `__<uuid>_<tstr>` of a fragment contains no '/'. -/
theorem frag_no_slash (u ts : Path) (hu : '/' ∉ u) (hd : ∀ c ∈ ts, c.isDigit = true) :
    '/' ∉ ('_' :: '_' :: (u ++ '_' :: ts)) := by
  intro hmem
  rcases List.mem_cons.mp hmem with h | hmem
  · exact absurd h (by decide)
  rcases List.mem_cons.mp hmem with h | hmem
  · exact absurd h (by decide)
  rcases List.mem_append.mp hmem with h | hmem
  · exact hu h
  rcases List.mem_cons.mp hmem with h | hmem
  · exact absurd h (by decide)
  · exact absurd (hd '/' hmem) (by decide)

/-- Reversal of the full fragment path, split at the '/' before the
    basename. -/
theorem mk_fragment_path_reverse (A u ts : Path) :
    (mk_fragment_path A u ts).reverse =
      ('_' :: '_' :: (u ++ '_' :: ts)).reverse ++ '/' :: A.reverse := by
  simp [mk_fragment_path, List.reverse_append]

/-- Reversal of the basename, split at the '_' before the timestamp. -/
theorem frag_reverse (u ts : Path) :
    ('_' :: '_' :: (u ++ '_' :: ts)).reverse =
      ts.reverse ++ '_' :: (u.reverse ++ ['_', '_']) := by
  simp [List.reverse_append]

/-- `findIdx?` finds the '_' right after a '_'-free prefix. -/
theorem findIdx_underscore : ∀ u : Path, '_' ∉ u → ∀ (rest : Path) (i : Nat),
    List.findIdx? (fun c => decide (c = '_')) (u ++ '_' :: rest) i =
      some (u.length + i) := by
  intro u
  induction u with
  | nil =>
    intro _ rest i
    simp [List.findIdx?_cons]
  | cons c u' ih =>
    intro hu rest i
    have hc : ¬(c = '_') := fun h => hu (h ▸ List.mem_cons_self _ _)
    rw [List.cons_append, List.findIdx?_cons]
    simp only [hc, decide_False, Bool.false_eq_true, if_false]
    rw [ih (fun h => hu (List.mem_cons_of_mem c h)) rest (i + 1)]
    congr 1
    simp only [List.length_cons]
    omega

/-- `sscanf %lld` on a nonempty all-digit string below the int64 bound
    parses its decimal value. -/
theorem sscanf_lld_digits (ts : Path) (junk : Int) (hne : ts ≠ [])
    (hd : ∀ c ∈ ts, c.isDigit = true) (hlt : parse_digits ts < 2 ^ 63) :
    sscanf_lld ts junk = Int.ofNat (parse_digits ts) := by
  obtain ⟨d, ds, rfl⟩ : ∃ d ds, ts = d :: ds := by
    cases ts with
    | nil => exact absurd rfl hne
    | cons d ds => exact ⟨d, ds, rfl⟩
  have hd0 := hd d (List.mem_cons_self _ _)
  have h1 : ¬(d = '-') := (digit_ne d hd0).2.2.1
  have h2 : ¬(d = '+') := (digit_ne d hd0).2.2.2
  rw [sscanf_lld]
  simp only [h1, h2, if_false]
  have htw : (d :: ds).takeWhile Char.isDigit = d :: ds := takeWhile_all Char.isDigit _ hd
  simp only [htw, if_neg hne]
  have hmin : min (parse_digits (d :: ds)) (2 ^ 63 - 1) = parse_digits (d :: ds) := by
    omega
  rw [hmin, one_mul]

/-- For a canonical fragment path `<A>/__<uuid>_<tstr>`, `parent_dir`
    recovers `A` and the stripped name is the basename. -/
theorem stripped_fragment_name_mk (cwd home A u ts : Path)
    (hcanon : real_dir cwd home (mk_fragment_path A u ts) = mk_fragment_path A u ts)
    (hu : '/' ∉ u) (hd : ∀ c ∈ ts, c.isDigit = true) :
    parent_dir cwd home (mk_fragment_path A u ts) = A ∧
    stripped_fragment_name cwd home (mk_fragment_path A u ts) =
      '_' :: '_' :: (u ++ '_' :: ts) := by
  have hfrag := frag_no_slash u ts hu hd
  obtain ⟨d, ds, hrev⟩ : ∃ d ds, ('_' :: '_' :: (u ++ '_' :: ts)).reverse = d :: ds := by
    cases hx : ('_' :: '_' :: (u ++ '_' :: ts)).reverse with
    | nil =>
      have hempty : ('_' :: '_' :: (u ++ '_' :: ts)) = [] := by
        have hrr := congrArg List.reverse hx
        simp at hrr
      exact absurd hempty (by simp)
    | cons d ds => exact ⟨d, ds, rfl⟩
  have hdmem : d ∈ ('_' :: '_' :: (u ++ '_' :: ts)) := by
    rw [← List.mem_reverse, hrev]
    exact List.mem_cons_self _ _
  have hdne : ¬(d = '/') := fun h => hfrag (h ▸ hdmem)
  have hne_root : mk_fragment_path A u ts ≠ ['/'] := by
    intro h
    have hlen := congrArg List.length h
    simp [mk_fragment_path] at hlen
    omega
  have hparent : parent_dir cwd home (mk_fragment_path A u ts) = A := by
    rw [parent_dir]
    simp only [hcanon, if_neg hne_root]
    rw [mk_fragment_path_reverse, hrev]
    simp only [List.cons_append]
    have hstep : List.dropWhile (fun c => decide (c ≠ '/')) (d :: (ds ++ '/' :: A.reverse)) =
        '/' :: A.reverse := by
      have hall : ∀ x ∈ d :: ds, (fun c => decide (c ≠ '/')) x = true := by
        intro x hx
        have hxmem : x ∈ ('_' :: '_' :: (u ++ '_' :: ts)) := by
          rw [← List.mem_reverse, hrev]
          exact hx
        simp only [ne_eq, decide_eq_true_eq]
        exact fun hxs => hfrag (hxs ▸ hxmem)
      have hbr := dropWhile_append_break (fun c => decide (c ≠ '/')) (d :: ds) '/' A.reverse
        hall (by simp)
      simpa using hbr
    simp only [hdne, if_false]
    rw [hstep]
    simp
  refine ⟨hparent, ?_⟩
  rw [stripped_fragment_name, hparent]
  show (A ++ '/' :: ('_' :: '_' :: (u ++ '_' :: ts))).drop (A.length + 1) = _
  rw [← List.drop_drop, List.drop_left]
  rfl

/-- The key `sort_fragment_names` computes for a well-formed canonical
    fragment path is its decimal timestamp paired with its index. -/
theorem fragment_key_mk (cwd home A u ts : Path) (junk : Int) (i : Nat)
    (hcanon : real_dir cwd home (mk_fragment_path A u ts) = mk_fragment_path A u ts)
    (hu : '/' ∉ u) (hu2 : '_' ∉ u) (hne : ts ≠ [])
    (hd : ∀ c ∈ ts, c.isDigit = true) (hlt : parse_digits ts < 2 ^ 63) :
    fragment_key cwd home junk i (mk_fragment_path A u ts) =
      (Int.ofNat (parse_digits ts), i) := by
  have hstr := (stripped_fragment_name_mk cwd home A u ts hcanon hu hd).2
  rw [fragment_key]
  simp only [hstr]
  have hfind : List.findIdx? (fun c => decide (c = '_')) (u ++ '_' :: ts) 0 =
      some u.length := by
    have := findIdx_underscore u hu2 ts 0
    simpa using this
  have hdrop2 : ('_' :: '_' :: (u ++ '_' :: ts)).drop 2 = u ++ '_' :: ts := rfl
  rw [hdrop2, hfind]
  have hdrop3 : ('_' :: '_' :: (u ++ '_' :: ts)).drop (u.length + 2 + 1) = ts := by
    show ('_' :: '_' :: (u ++ '_' :: ts)).drop (u.length + 3) = ts
    have h1 : u.length + 3 = 2 + (u.length + 1) := by omega
    rw [h1, ← List.drop_drop]
    show (u ++ '_' :: ts).drop (u.length + 1) = ts
    rw [← List.drop_drop, List.drop_left]
    rfl
  show (sscanf_lld (('_' :: '_' :: (u ++ '_' :: ts)).drop (u.length + 2 + 1)) junk, i) = _
  rw [hdrop3, sscanf_lld_digits ts junk hne hd hlt]

/-- The spec-side timestamp of a well-formed fragment path is the decimal
    value of its timestamp field. -/
theorem spec_timestamp_mk (A u ts : Path) (hu : '/' ∉ u)
    (hd : ∀ c ∈ ts, c.isDigit = true) :
    spec_timestamp (mk_fragment_path A u ts) = parse_digits ts := by
  have hfrag := frag_no_slash u ts hu hd
  rw [spec_timestamp]
  have htw1 : (mk_fragment_path A u ts).reverse.takeWhile (fun c => decide (c ≠ '/')) =
      ('_' :: '_' :: (u ++ '_' :: ts)).reverse := by
    rw [mk_fragment_path_reverse]
    apply takeWhile_append_break
    · intro x hx
      have hxmem : x ∈ ('_' :: '_' :: (u ++ '_' :: ts)) := List.mem_reverse.mp hx
      simp only [ne_eq, decide_eq_true_eq]
      exact fun hxs => hfrag (hxs ▸ hxmem)
    · simp
  simp only [htw1, List.reverse_reverse]
  have htw2 : ('_' :: '_' :: (u ++ '_' :: ts)).reverse.takeWhile
      (fun c => decide (c ≠ '_')) = ts.reverse := by
    rw [frag_reverse]
    apply takeWhile_append_break
    · intro x hx
      have hxmem : x ∈ ts := List.mem_reverse.mp hx
      simp only [ne_eq, decide_eq_true_eq]
      exact (digit_ne x (hd x hxmem)).2.1
    · simp
  simp only [htw2, List.reverse_reverse]

/-- In a duplicate-free list, `indexOf` recovers the position of each
    element. -/
theorem indexOf_getElem_nodup : ∀ (l : List Path), l.Nodup →
    ∀ (j : Nat) (hj : j < l.length), l.indexOf (l.get ⟨j, hj⟩) = j := by
  intro l
  induction l with
  | nil => intro _ j hj; simp at hj
  | cons a rest ih =>
    intro hnd j hj
    cases j with
    | zero =>
      show (a :: rest).indexOf a = 0
      simp [List.indexOf_cons]
    | succ k =>
      have hk : k < rest.length := by simpa using hj
      show (a :: rest).indexOf (rest.get ⟨k, hk⟩) = k + 1
      rw [List.indexOf_cons]
      have hmem : rest.get ⟨k, hk⟩ ∈ rest := List.get_mem rest k hk
      have hne : (a == rest.get ⟨k, hk⟩) = false := by
        simp only [beq_eq_false_iff_ne, ne_eq]
        intro heq
        exact (List.nodup_cons.mp hnd).1 (heq ▸ hmem)
      rw [hne, cond_false, ih (List.nodup_cons.mp hnd).2 k hk]

/-- General sorting property of `sort_fragment_names`: when the key each
    name receives is `(timestamp-of-name, index)` for some timestamp
    function `tf`, the result is a permutation of the input along which the
    pairs `(tf name, original index)` are strictly increasing. -/
theorem sort_fragment_names_sorted_general (cwd home : Path) (junk : Int)
    (names : List Path) (tf : Path → Nat) (hnd : names.Nodup)
    (hkeys : names.enum.map (fun e => fragment_key cwd home junk e.1 e.2) =
      names.enum.map (fun e => (Int.ofNat (tf e.2), e.1))) :
    (sort_fragment_names cwd home junk names).Perm names ∧
    List.Sorted pair_lt ((sort_fragment_names cwd home junk names).map
      (fun nm => (tf nm, names.indexOf nm))) := by
  have hresult : sort_fragment_names cwd home junk names =
      (List.insertionSort pair_le
        (names.enum.map (fun e => (Int.ofNat (tf e.2), e.1)))).map
        (fun k => names.getD k.2 []) := by
    show (List.insertionSort pair_le
      (names.enum.map (fun e => fragment_key cwd home junk e.1 e.2))).map
      (fun k => names.getD k.2 []) = _
    rw [hkeys]
  have hperm_s : (List.insertionSort pair_le
      (names.enum.map (fun e => (Int.ofNat (tf e.2), e.1)))).Perm
      (names.enum.map (fun e => (Int.ofNat (tf e.2), e.1))) :=
    List.perm_insertionSort pair_le _
  have hsorted_s : List.Sorted pair_le (List.insertionSort pair_le
      (names.enum.map (fun e => (Int.ofNat (tf e.2), e.1)))) :=
    List.sorted_insertionSort pair_le _
  have hmapback : (names.enum.map (fun e => (Int.ofNat (tf e.2), e.1))).map
      (fun k => names.getD k.2 []) = names := by
    rw [List.map_map]
    apply List.ext_getElem
    · simp
    · intro n h1 h2
      rw [List.getElem_map, List.getElem_enum]
      exact List.getD_eq_getElem names [] h2
  constructor
  · rw [hresult]
    have hpm := hperm_s.map (fun k => names.getD k.2 [])
    rw [hmapback] at hpm
    exact hpm
  · rw [hresult, List.map_map]
    have hchar : ∀ k ∈ List.insertionSort pair_le
        (names.enum.map (fun e => (Int.ofNat (tf e.2), e.1))),
        ∃ (j : Nat) (hj : j < names.length),
          k = (Int.ofNat (tf (names.get ⟨j, hj⟩)), j) := by
      intro k hk
      have hk2 := hperm_s.subset hk
      obtain ⟨e, he, hke⟩ := List.mem_map.mp hk2
      obtain ⟨i, x⟩ := e
      obtain ⟨hi, hx⟩ := List.mem_enum he
      refine ⟨i, hi, ?_⟩
      rw [← hke]
      have hxg : x = names.get ⟨i, hi⟩ := by
        rw [List.get_eq_getElem]
        exact hx
      rw [hxg]
    have hsnd_nodup : ((List.insertionSort pair_le
        (names.enum.map (fun e => (Int.ofNat (tf e.2), e.1)))).map Prod.snd).Nodup := by
      have hkeysnd : (names.enum.map (fun e => (Int.ofNat (tf e.2), e.1))).map Prod.snd =
          List.range names.length := by
        rw [List.map_map]
        calc names.enum.map (Prod.snd ∘ fun e => (Int.ofNat (tf e.2), e.1))
            = names.enum.map Prod.fst := List.map_congr_left (fun e _ => rfl)
          _ = List.range names.length := List.enum_map_fst names
      have hp := hperm_s.map Prod.snd
      exact hp.nodup_iff.mpr (hkeysnd ▸ List.nodup_range names.length)
    have hpair_ne : List.Pairwise (fun x y : Int × Nat => x.2 ≠ y.2)
        (List.insertionSort pair_le
          (names.enum.map (fun e => (Int.ofNat (tf e.2), e.1)))) :=
      List.pairwise_map.mp hsnd_nodup
    have hcomb := hsorted_s.and hpair_ne
    have hG : ∀ (j : Nat) (hj : j < names.length),
        (tf (names.getD j []), names.indexOf (names.getD j [])) =
          (tf (names.get ⟨j, hj⟩), j) := by
      intro j hj
      have hgd : names.getD j [] = names.get ⟨j, hj⟩ := by
        rw [List.getD_eq_getElem names [] hj, List.get_eq_getElem]
      refine Prod.ext ?_ ?_
      · show tf (names.getD j []) = _
        rw [hgd]
      · show names.indexOf (names.getD j []) = j
        rw [hgd]
        exact indexOf_getElem_nodup names hnd j hj
    apply List.pairwise_map.mpr
    apply List.Pairwise.imp_of_mem ?_ hcomb
    intro a b ha hb hab
    obtain ⟨j1, hj1, rfl⟩ := hchar a ha
    obtain ⟨j2, hj2, rfl⟩ := hchar b hb
    show pair_lt (tf (names.getD j1 []), names.indexOf (names.getD j1 []))
      (tf (names.getD j2 []), names.indexOf (names.getD j2 []))
    rw [hG j1 hj1, hG j2 hj2]
    have h1 := hab.1
    have h2 := hab.2
    simp [pair_le] at h1
    simp at h2
    simp [pair_lt]
    omega

/-- Claim C4: for every list of fragment directory names of the form
    `<parent>/__<uuid>_<timestamp>` — canonical paths whose uuid field is
    '/'- and '_'-free, whose timestamp field is a decimal numeral below
    2^63, and which are pairwise distinct — `sort_fragment_names` returns a
    permutation of the names along which the spec-side keys (embedded
    timestamp = last underscore-separated field of the basename, original
    index) are strictly increasing in lexicographic order: a stable sort by
    ascending timestamp with ties broken by original index.  The witness
    instantiates the spec's example: timestamps [5, 1, 3, 2, 4] come out
    ordered [1, 2, 3, 4, 5]. -/
theorem sort_fragment_names_orders_by_timestamp
    (cwd home A : Path) (junk : Int) (ps : List (Path × Path))
    (hcanon : ∀ pr ∈ ps, real_dir cwd home (mk_fragment_path A pr.1 pr.2) =
      mk_fragment_path A pr.1 pr.2)
    (huuid : ∀ pr ∈ ps, '/' ∉ pr.1 ∧ '_' ∉ pr.1)
    (hts : ∀ pr ∈ ps, pr.2 ≠ [] ∧ (∀ c ∈ pr.2, c.isDigit = true) ∧
      parse_digits pr.2 < 2 ^ 63)
    (hnd : (ps.map (fun pr => mk_fragment_path A pr.1 pr.2)).Nodup) :
    (sort_fragment_names cwd home junk
        (ps.map (fun pr => mk_fragment_path A pr.1 pr.2))).Perm
      (ps.map (fun pr => mk_fragment_path A pr.1 pr.2)) ∧
    List.Sorted pair_lt
      ((sort_fragment_names cwd home junk
          (ps.map (fun pr => mk_fragment_path A pr.1 pr.2))).map
        (fun nm => (spec_timestamp nm,
          (ps.map (fun pr => mk_fragment_path A pr.1 pr.2)).indexOf nm))) := by
  apply sort_fragment_names_sorted_general cwd home junk _ spec_timestamp hnd
  apply List.ext_getElem
  · simp
  · intro n h1 h2
    have hn : n < ps.length := by simpa using h1
    have hn' : n < (ps.map (fun pr => mk_fragment_path A pr.1 pr.2)).length := by
      simpa using hn
    rw [List.getElem_map, List.getElem_map, List.getElem_enum]
    dsimp only
    have hmem : ps[n] ∈ ps := List.getElem_mem hn
    have hnmi : (ps.map (fun pr => mk_fragment_path A pr.1 pr.2))[n] =
        mk_fragment_path A ps[n].1 ps[n].2 := by
      rw [List.getElem_map]
    rw [hnmi]
    rw [fragment_key_mk cwd home A ps[n].1 ps[n].2 junk n
      (hcanon ps[n] hmem) (huuid ps[n] hmem).1 (huuid ps[n] hmem).2
      (hts ps[n] hmem).1 (hts ps[n] hmem).2.1 (hts ps[n] hmem).2.2]
    rw [spec_timestamp_mk A ps[n].1 ps[n].2 (huuid ps[n] hmem).1 (hts ps[n] hmem).2.1]

/-- Witness for C4: the spec's example.  Fragments with timestamps
    [5, 1, 3, 2, 4] under parent "/a" come out ordered [1, 2, 3, 4, 5],
    and the theorem's hypotheses and conclusion hold at this input. -/
theorem sort_fragment_names_orders_by_timestamp_witness :
    sort_fragment_names "/c".toList "/h".toList 0
      ["/a/__f1_5".toList, "/a/__f2_1".toList, "/a/__f3_3".toList,
       "/a/__f4_2".toList, "/a/__f5_4".toList] =
      ["/a/__f2_1".toList, "/a/__f4_2".toList, "/a/__f3_3".toList,
       "/a/__f5_4".toList, "/a/__f1_5".toList] ∧
    ((sort_fragment_names "/c".toList "/h".toList 0
        ([("f1".toList, "5".toList), ("f2".toList, "1".toList), ("f3".toList, "3".toList),
          ("f4".toList, "2".toList), ("f5".toList, "4".toList)].map
          (fun pr => mk_fragment_path "/a".toList pr.1 pr.2))).Perm
      ([("f1".toList, "5".toList), ("f2".toList, "1".toList), ("f3".toList, "3".toList),
        ("f4".toList, "2".toList), ("f5".toList, "4".toList)].map
        (fun pr => mk_fragment_path "/a".toList pr.1 pr.2)) ∧
    List.Sorted pair_lt
      ((sort_fragment_names "/c".toList "/h".toList 0
          ([("f1".toList, "5".toList), ("f2".toList, "1".toList), ("f3".toList, "3".toList),
            ("f4".toList, "2".toList), ("f5".toList, "4".toList)].map
            (fun pr => mk_fragment_path "/a".toList pr.1 pr.2))).map
        (fun nm => (spec_timestamp nm,
          ([("f1".toList, "5".toList), ("f2".toList, "1".toList), ("f3".toList, "3".toList),
            ("f4".toList, "2".toList), ("f5".toList, "4".toList)].map
            (fun pr => mk_fragment_path "/a".toList pr.1 pr.2)).indexOf nm)))) := by
  constructor
  · decide
  · exact sort_fragment_names_orders_by_timestamp "/c".toList "/h".toList "/a".toList 0
      [("f1".toList, "5".toList), ("f2".toList, "1".toList), ("f3".toList, "3".toList),
       ("f4".toList, "2".toList), ("f5".toList, "4".toList)]
      (by decide) (by decide) (by decide) (by decide)

end TileDB
